import Mathlib

/-!
Verification development for the pygif repository (gif.py / gifdec.py / gifenc.py).

The Python sources are embedded shallowly:
* byte strings become `List Nat` (every element intended `< 256`),
* file handles become a byte list plus a cursor position,
* generators become explicit recursion (with a fuel argument where the
  Python loop is not structurally recursive; the chosen fuel is proved or
  checked sufficient at every use relevant to a claim),
* exceptions become `Except Err`.

The two coupled generators `lzw_bytes_to_codes` and `lzw_decode` of gif.py
are fused into one step function `lzwProcessCode` plus a driver `lzwRun`,
preserving the exact interleaving of the Python generator protocol: for each
code the consumer body of `lzw_decode` runs first, then the post-yield
bookkeeping of `lzw_bytes_to_codes`.
-/

namespace PyGif

/-- Error kinds of the repository.  `GifError`/`RgbError` messages are mapped
to constructors; Python built-in exceptions that escape uncaught
(`IndexError`, `ValueError`, `NameError`) get their own constructors, and
`fuelOut` marks exhaustion of a fuel argument (never a behaviour of the
source; ruled out wherever a claim depends on it). -/
inductive Err where
  | truncated      -- GifError "unexpected end of file"
  | badCode        -- GifError "invalid LZW code"
  | badIndex       -- GifError "invalid index in image data"
  | notGif         -- GifError "not a GIF file"
  | areaZero       -- GifError "image area zero"
  | badLzwBits     -- GifError "invalid LZW palette bit depth"
  | badBlock       -- GifError "invalid block type"
  | badExt         -- GifError "invalid Extension label"
  | noImages       -- GifError "no images"
  | noPalette      -- GifError "no palette"
  | tooManyColors  -- RgbError "too many colors"
  | badRgbSize     -- RgbError "invalid file size"
  | valueErr       -- uncaught Python ValueError (bytearray append of a value >= 256, max of empty)
  | indexErr       -- uncaught Python IndexError
  | nameErr        -- uncaught Python NameError (lzw_encode lookup never assigned)
  | fuelOut        -- fuel exhausted (artefact of the embedding)
  deriving DecidableEq, Repr

/-- Little-endian value of a byte list: the Python loop
`code |= data[pos+offset] << (offset * 8)` over consecutive bytes
(disjoint byte ranges, so the OR is addition for bytes < 256). -/
def natOfBytes : List Nat → Nat
  | [] => 0
  | b :: r => b + 256 * natOfBytes r

/-- Read one LZW code of width `codeLen` at byte position `pos`, bit position
`bitPos`, from gif.py `lzw_bytes_to_codes`: combine
`ceil((bitPos+codeLen)/8)` bytes little-endian, shift out `bitPos` bits, mask
to `codeLen` bits.  Fails with `truncated` when a needed byte is missing. -/
def readCode (data : List Nat) (pos bitPos codeLen : Nat) : Except Err Nat :=
  let n := (bitPos + codeLen + 7) / 8
  if pos + n ≤ data.length then
    .ok (natOfBytes ((data.drop pos).take n) / 2 ^ bitPos % 2 ^ codeLen)
  else
    .error .truncated

/-- LZW decoder dictionary entry: `(pfx, byte)` where `pfx = none` stands for
the Python sentinel prefix `-1` of a root entry. -/
abbrev DEntry := Option Nat × Nat

/-- `while suffixCode != -1: (suffixCode, suffixByte) = lzwDict[suffixCode]`
from gif.py `lzw_decode`: walk the prefix chain down to a root and return the
byte stored there (the first byte of the entry).  An out-of-range index is an
uncaught Python `IndexError` here (the `try` in the source only wraps the
entry walk). -/
def walkFirstByte (dict : List DEntry) : Nat → Nat → Except Err Nat
  | 0, _ => .error .fuelOut
  | fuel + 1, c =>
    match dict.get? c with
    | none => .error .indexErr
    | some (pfx, b) =>
      match pfx with
      | none => .ok b
      | some p => walkFirstByte dict fuel p

/-- The entry-emission walk of gif.py `lzw_decode`: collect bytes along the
prefix chain of `c` (the Python code appends walking backwards and then
reverses; the accumulator here builds the reversed result directly).  An
out-of-range index is the caught `IndexError`, i.e. GifError
"invalid LZW code"; a byte value ≥ 256 is the `ValueError` that
`bytearray.append` would raise. -/
def walkEntry (dict : List DEntry) : Nat → Nat → List Nat → Except Err (List Nat)
  | 0, _, _ => .error .fuelOut
  | fuel + 1, c, acc =>
    match dict.get? c with
    | none => .error .badCode
    | some (pfx, b) =>
      if 256 ≤ b then .error .valueErr
      else
        match pfx with
        | none => .ok (b :: acc)
        | some p => walkEntry dict fuel p (b :: acc)

/-- Joint state of the fused `lzw_bytes_to_codes` / `lzw_decode` loop of
gif.py: `pos`, `bitPos`, `codeLen`, `dictLen`, `prevCode` are the reader
generator's variables, `dict` is the consumer's `lzwDict`, `out` the decoded
image data. -/
structure DecSt where
  pos : Nat
  bitPos : Nat
  codeLen : Nat
  dictLen : Nat
  prevCode : Option Nat
  dict : List DEntry
  out : List Nat
  deriving Repr

/-- Outcome of processing one LZW code. -/
inductive StepRes where
  | next (s : DecSt)
  | done (out : List Nat)
  | fail (e : Err)
  deriving Repr

/-- The initial decoder state: `lzwDict = [(-1, i) for i in range(2**palBits + 2)]`,
`codeLen = palBits + 1`, `dictLen = 2**palBits + 2`. -/
def initDecSt (palBits : Nat) : DecSt :=
  { pos := 0, bitPos := 0, codeLen := palBits + 1, dictLen := 2 ^ palBits + 2,
    prevCode := none, dict := (List.range (2 ^ palBits + 2)).map (fun i => (none, i)),
    out := [] }

/-- Process one already-read code: first the consumer body of `lzw_decode`
(dictionary reset / entry append and emission), then the post-yield
bookkeeping of `lzw_bytes_to_codes` (the clear/end dispatch, the simulated
dictionary length, `prevCode` and the code-length growth).  `s` must already
contain the advanced `pos`/`bitPos` (the reader advances before yielding). -/
def lzwProcessCode (palBits : Nat) (s : DecSt) (code : Nat) : StepRes :=
  if code = 2 ^ palBits then
    -- clear: consumer truncates the dictionary, reader resets its state
    .next { s with codeLen := palBits + 1, dictLen := 2 ^ palBits + 2,
                   prevCode := none, dict := s.dict.take (2 ^ palBits + 2) }
  else if code = 2 ^ palBits + 1 then
    -- end: reader breaks, consumer returns the image data
    .done s.out
  else
    -- consumer: add entry (when a previous code is pending), emit entry
    let dict1res : Except Err (List DEntry) :=
      match s.prevCode with
      | none => .ok s.dict
      | some pc =>
        let sfx := if code < s.dict.length then code else pc
        match walkFirstByte s.dict (s.dict.length + 1) sfx with
        | .error e => .error e
        | .ok b => .ok (s.dict ++ [(some pc, b)])
    match dict1res with
    | .error e => .fail e
    | .ok dict1 =>
      match walkEntry dict1 (dict1.length + 1) code [] with
      | .error e => .fail e
      | .ok entry =>
        let out1 := s.out ++ entry
        -- reader post-yield bookkeeping
        if s.prevCode.isSome ∧ s.dictLen < code then .fail .badCode
        else
          let dictLen1 := if s.prevCode.isSome then s.dictLen + 1 else s.dictLen
          let prev1 := if code < dictLen1 ∧ dictLen1 < 2 ^ 12 then some code else none
          let codeLen1 := if dictLen1 = 2 ^ s.codeLen ∧ s.codeLen < 12
                          then s.codeLen + 1 else s.codeLen
          .next { s with dictLen := dictLen1, prevCode := prev1,
                         codeLen := codeLen1, dict := dict1, out := out1 }

/-- One full iteration: read a code (advancing the bit cursor) and process it. -/
def lzwStep (data : List Nat) (palBits : Nat) (s : DecSt) : StepRes :=
  match readCode data s.pos s.bitPos s.codeLen with
  | .error e => .fail e
  | .ok code =>
    let bits := s.bitPos + s.codeLen
    lzwProcessCode palBits
      { s with pos := s.pos + bits / 8, bitPos := bits % 8 } code

/-- Driver: iterate `lzwStep` (the fused decoding loop). -/
def lzwRun (data : List Nat) (palBits : Nat) : Nat → DecSt → Except Err (List Nat)
  | 0, _ => .error .fuelOut
  | fuel + 1, s =>
    match lzwStep data palBits s with
    | .fail e => .error e
    | .done out => .ok out
    | .next s1 => lzwRun data palBits fuel s1

/-- gif.py `lzw_decode` (fused with `lzw_bytes_to_codes`): decode LZW data
into indexed image data.  Every iteration consumes at least `palBits + 1 ≥ 3`
bits and a read past the end fails, so `3 * data.length + 2` iterations are
provably enough fuel. -/
def lzw_decode (data : List Nat) (palBits : Nat) : Except Err (List Nat) :=
  lzwRun data palBits (3 * data.length + 2) (initDecSt palBits)

/-- Width at which the decoder reads the next code when its simulated
dictionary length is `n`: starts at `palBits + 1`, grows by one when the
post-append dictionary length reaches `2 ^ codeLen` (while `codeLen < 12`).
Closed form: `min 12 (max (palBits+1) ⌈log2 (n+1)⌉)`. -/
def decWidth (palBits n : Nat) : Nat :=
  min 12 (max (palBits + 1) (Nat.clog 2 (n + 1)))

/-- Structure of every reachable decoder dictionary: the first
`2^palBits + 2` slots are the root entries `(-1, i)` (including the two
reserved clear/end slots), and every later slot is a chain entry whose
prefix is a smaller, non-reserved code and whose stored byte is a root index
below `2^palBits`. -/
def DictWF (palBits : Nat) (dict : List DEntry) : Prop :=
  (∀ i, i < 2 ^ palBits + 2 → dict.get? i = some (none, i)) ∧
  (∀ i e, dict.get? i = some e → 2 ^ palBits + 2 ≤ i →
    ∃ q b, e = (some q, b) ∧ q < i ∧ q ≠ 2 ^ palBits ∧
      q ≠ 2 ^ palBits + 1 ∧ b < 2 ^ palBits)

/-- Invariant of every reachable state of the fused decoding loop: the
reader's simulated dictionary length agrees with the consumer's dictionary,
the dictionary stays within `[2^palBits + 2, 4096]` and is well-formed, a
pending previous code is a valid non-reserved index (and implies the
dictionary is not yet full), the code length is `decWidth` of the dictionary
length, and all decoded output bytes are below `2^palBits`. -/
def DecInv (palBits : Nat) (s : DecSt) : Prop :=
  s.dictLen = s.dict.length ∧
  2 ^ palBits + 2 ≤ s.dict.length ∧
  s.dict.length ≤ 4096 ∧
  DictWF palBits s.dict ∧
  (∀ q, s.prevCode = some q → q < s.dict.length ∧ q ≠ 2 ^ palBits ∧
    q ≠ 2 ^ palBits + 1 ∧ s.dict.length < 4096) ∧
  s.codeLen = decWidth palBits s.dictLen ∧
  (∀ x ∈ s.out, x < 2 ^ palBits)

/-- Source row index for destination row `dy` in gif.py `deinterlace_image`. -/
def deinterlaceSrcRow (height dy : Nat) : Nat :=
  if dy % 8 = 0 then dy / 8
  else if dy % 8 = 4 then (height + 7) / 8 + dy / 8
  else if dy % 4 = 2 then (height + 3) / 4 + dy / 4
  else (height + 1) / 2 + dy / 2

/-- gif.py `deinterlace_image`: one pixel row per destination row, the
`dy`-th yielded row being `imageData[sy*width:(sy+1)*width]`. -/
def deinterlace_image (imageData : List Nat) (width : Nat) : List (List Nat) :=
  let height := imageData.length / width
  (List.range height).map (fun dy =>
    ((imageData.drop (deinterlaceSrcRow height dy * width)).take width))

/-- The source-row map that claim C7 describes, following the claim's words:
four successive blocks of sizes `g1 = ⌈H/8⌉`, `g2 = (H+3)/4 − g1`,
`g3 = ⌈H/4⌉`, `g4 = ⌊H/2⌋`, assigned to destination rows `0,8,16,…`;
`4,12,20,…`; `2,6,10,…`; `1,3,5,…`.  Kept separate from the code-derived
`deinterlaceSrcRow` so the two can be compared. -/
def claimedDeinterlaceSrcRow (height dy : Nat) : Nat :=
  let g1 := (height + 7) / 8
  let g2 := (height + 3) / 4 - g1
  let g3 := (height + 3) / 4    -- the claim's ⌈H/4⌉
  if dy % 8 = 0 then dy / 8
  else if dy % 8 = 4 then g1 + dy / 8
  else if dy % 4 = 2 then g1 + g2 + dy / 4
  else g1 + g2 + g3 + dy / 2

/-! ### LZW encoder (gif.py `lzw_encode` = gifenc.py `generate_lzw_codes`) -/

/-- The encoder dictionary: Python dict from byte string (entry) to LZW code,
as an association list in insertion order (keys are distinct in every
reachable dictionary). -/
abbrev EDict := List (List Nat × Nat)

/-- Lookup in the encoder dictionary (`lzwDict[bytes(entry)]`). -/
def encLookup : EDict → List Nat → Option Nat
  | [], _ => none
  | (k, v) :: rest, key => if k = key then some v else encLookup rest key

/-- `dict((bytes((i,)), i) for i in range(2 ** palBits))`. -/
def encInitDict (palBits : Nat) : EDict :=
  (List.range (2 ^ palBits)).map (fun i => ([i], i))

/-- The greedy longest-match loop of `lzw_encode`: extend `entry` one byte at
a time over the remaining input; after each extension look the entry up; the
last successful lookup gives the emitted `(code, entry_length)`.  `none`
means even the first byte is not in the dictionary (the Python code would
then use `code` unassigned: a `NameError`). -/
def findLongest (d : EDict) (entry : List Nat) (best : Option (Nat × Nat)) :
    List Nat → Option (Nat × Nat)
  | [] => best
  | b :: rest =>
    let entry1 := entry ++ [b]
    match encLookup d entry1 with
    | some c => findLongest d entry1 (some (c, entry1.length)) rest
    | none => best

/-- The main loop of gif.py `lzw_encode`, emitting `(code, code_length)`
pairs after the initial clear code.  Faithful points: the dictionary entry
added after emission is the matched entry extended by the next input byte,
with code `len(lzwDict) + 2` (length before insertion); the code length
grows right after the insertion when `len(lzwDict) > 2 ** codeLen - 2`; at
`len(lzwDict) = 2 ** 12 - 2` either a clear code is emitted and dictionary
and code length reset (default) or, under `no_dict_reset`, the dictionary is
frozen.  Fuel: each iteration with input left consumes at least one input
byte, so `input.length + 2` iterations always suffice. -/
def lzwEncLoop (noReset : Bool) (palBits : Nat) (input : List Nat) :
    Nat → Nat → Nat → EDict → Except Err (List (Nat × Nat))
  | 0, _, _, _ => .error .fuelOut
  | fuel + 1, pos, codeLen, d =>
    if pos < input.length then
      match findLongest d [] none (input.drop pos) with
      | none => .error .nameErr
      | some (code, elen) =>
        let pos1 := pos + elen
        if pos1 < input.length then
          if d.length < 2 ^ 12 - 2 then
            let entry1 := (input.drop pos).take elen ++ [input.getD pos1 0]
            let d1 := d ++ [(entry1, d.length + 2)]
            let codeLen1 := if 2 ^ codeLen - 2 < d1.length then codeLen + 1 else codeLen
            match lzwEncLoop noReset palBits input fuel pos1 codeLen1 d1 with
            | .error e => .error e
            | .ok rest => .ok ((code, codeLen) :: rest)
          else if noReset then
            match lzwEncLoop noReset palBits input fuel pos1 codeLen d with
            | .error e => .error e
            | .ok rest => .ok ((code, codeLen) :: rest)
          else
            match lzwEncLoop noReset palBits input fuel pos1 (palBits + 1)
                    (encInitDict palBits) with
            | .error e => .error e
            | .ok rest => .ok ((code, codeLen) :: (2 ^ palBits, codeLen) :: rest)
        else
          match lzwEncLoop noReset palBits input fuel pos1 codeLen d with
          | .error e => .error e
          | .ok rest => .ok ((code, codeLen) :: rest)
    else
      .ok [(2 ^ palBits + 1, codeLen)]

/-- gif.py `lzw_encode`: the clear code first, then the loop, the end code
last (the end code is produced inside `lzwEncLoop` when the input is
exhausted). -/
def lzw_encode (noReset : Bool) (palBits : Nat) (input : List Nat) :
    Except Err (List (Nat × Nat)) :=
  match lzwEncLoop noReset palBits input (input.length + 2) 0 (palBits + 1)
          (encInitDict palBits) with
  | .error e => .error e
  | .ok rest => .ok ((2 ^ palBits, palBits + 1) :: rest)

/-- `while dataLen >= 8: dataBytes.append(data & 0xff); data >>= 8; dataLen -= 8`
from gif.py `lzw_codes_to_bytes`: returns the chopped-off bytes and the
remaining accumulator and bit count. -/
def chopBytesF : Nat → Nat → Nat → List Nat × Nat × Nat
  | 0, acc, accLen => ([], acc, accLen)
  | fuel + 1, acc, accLen =>
    if 8 ≤ accLen then
      let r := chopBytesF fuel (acc / 256) (accLen - 8)
      (acc % 256 :: r.1, r.2)
    else
      ([], acc, accLen)

/-- Entry point of the chop loop: each iteration removes 8 bits, so `accLen`
iterations always suffice (when the fuel runs out `accLen < 8` already and
the base case is what the loop would return). -/
def chopBytes (acc accLen : Nat) : List Nat × Nat × Nat :=
  chopBytesF accLen acc accLen

/-- The packing loop of gif.py `lzw_codes_to_bytes`: prepend each code to the
accumulator (`data |= code << dataLen`; the low `dataLen` bits of the
accumulator are below `2 ^ dataLen`, so for codes below `2 ^ codeLen` the OR
is addition), chop off full bytes, and append the final partial byte. -/
def packCodes : List (Nat × Nat) → Nat → Nat → List Nat
  | [], acc, accLen => if accLen ≠ 0 then [acc] else []
  | (code, w) :: rest, acc, accLen =>
    let acc1 := acc + code * 2 ^ accLen
    let r := chopBytes acc1 (accLen + w)
    r.1 ++ packCodes rest r.2.1 r.2.2

/-- gif.py `lzw_codes_to_bytes`: LZW-encode and pack the codes LSB-first. -/
def lzw_codes_to_bytes (noReset : Bool) (paletteBits : Nat) (imageData : List Nat) :
    Except Err (List Nat) :=
  match lzw_encode noReset paletteBits imageData with
  | .error e => .error e
  | .ok codes => .ok (packCodes codes 0 0)

/-- Width of the next LZW code when the encoder dictionary holds `n` keys
(the actual dictionary size is `n + 2`, counting the reserved clear and end
codes): the code length starts at `palBits + 1` and is incremented as soon as
an insertion makes `n + 2` exceed `2 ^ codeLen`, capped at 12.  The closed
form: `min 12 (max (palBits+1) ⌈log2 (n+2)⌉)`. -/
def encWidth (palBits n : Nat) : Nat :=
  min 12 (max (palBits + 1) (Nat.clog 2 (n + 2)))

/-- Shape of every reachable encoder dictionary: the root entries
`[i] ↦ i (i < 2^palBits)` followed by added entries whose codes are
consecutive from `2^palBits + 2` (the clear and end codes are skipped). -/
def EncWF (palBits : Nat) (d : EDict) : Prop :=
  ∃ rest, d = encInitDict palBits ++ rest ∧
    rest.map Prod.snd = List.range' (2 ^ palBits + 2) rest.length

/-- Adjacency relation between consecutive emitted `(code, width)` pairs:
after a clear code the width is back to `palBits + 1`; otherwise the width
never decreases and grows by at most one. -/
def encAdj (palBits : Nat) (cw cw' : Nat × Nat) : Prop :=
  (cw.1 = 2 ^ palBits → cw'.2 = palBits + 1) ∧
  (cw.1 ≠ 2 ^ palBits → cw.2 ≤ cw'.2 ∧ cw'.2 ≤ cw.2 + 1)

/-- Well-formedness of a code stream produced by `lzwEncLoop` from a state
with code length `c`: the first pair is emitted at width `c`; every width is
in `[palBits+1, 12]` and every code fits its width; widths follow `encAdj`;
the last pair is the end code and the end code occurs nowhere else. -/
def EncOut (palBits c : Nat) (codes : List (Nat × Nat)) : Prop :=
  codes.head?.map Prod.snd = some c ∧
  (∀ cw ∈ codes, palBits + 1 ≤ cw.2 ∧ cw.2 ≤ 12 ∧ cw.1 < 2 ^ cw.2) ∧
  List.Chain' (encAdj palBits) codes ∧
  (∃ w, codes.getLast? = some (2 ^ palBits + 1, w)) ∧
  (∀ cw ∈ codes.dropLast, cw.1 ≠ 2 ^ palBits + 1)

/-! ### RGB / palette handling (gif.py encoding side) -/

/-- Successive 3-byte reads: `handle.read(3)` repeated `len // 3` times. -/
def chunks3 (l : List Nat) : List (List Nat) :=
  (List.range (l.length / 3)).map (fun i => (l.drop (3 * i)).take 3)

/-- Python `bytes` comparison on equal-length byte strings: lexicographic. -/
def lexLe : List Nat → List Nat → Bool
  | [], _ => true
  | _ :: _, [] => false
  | a :: as, b :: bs => if a < b then true else if b < a then false else lexLe as bs

/-- Insertion into a `lexLe`-sorted list. -/
def insertLex (x : List Nat) : List (List Nat) → List (List Nat)
  | [] => [x]
  | y :: ys => if lexLe x y then x :: y :: ys else y :: insertLex x ys

/-- Insertion sort by `lexLe` — Python `sorted` on a set of bytes objects. -/
def sortLex : List (List Nat) → List (List Nat)
  | [] => []
  | x :: xs => insertLex x (sortLex xs)

/-- gif.py `get_palette_from_raw_image`: the set of 3-byte pixels, failing
when it exceeds 256 entries, joined in sorted order. -/
def get_palette_from_raw_image (rgb : List Nat) : Except Err (List Nat) :=
  let colors := (chunks3 rgb).dedup
  if 256 < colors.length then .error .tooManyColors
  else .ok (sortLex colors).flatten

/-- The palette as a tuple of 3-byte colors:
`tuple(palette[pos:pos+3] for pos in range(0, len(palette), 3))`. -/
def paletteTriples (palette : List Nat) : List (List Nat) :=
  (List.range (palette.length / 3)).map (fun i => (palette.drop (3 * i)).take 3)

/-- gif.py `raw_image_to_indexed`: map each 3-byte pixel to its palette
index via the `rgbToIndex` dictionary (palette triples are distinct, so the
first index is the index). -/
def raw_image_to_indexed (rgb palette : List Nat) : List Nat :=
  (chunks3 rgb).map (fun c => (paletteTriples palette).indexOf c)

/-- Fuel-based ceiling base-2 logarithm, the least `k` with `n ≤ 2 ^ k` for
`n ≥ 2` (0 for `n ≤ 1`): one halving (rounding up) per step, so `n` steps
always suffice.  Proved equal to `Nat.clog 2` below. -/
def clog2F : Nat → Nat → Nat
  | 0, _ => 0
  | fuel + 1, n => if n ≤ 1 then 0 else clog2F fuel ((n + 1) / 2) + 1

/-- `math.ceil(math.log2(n))` on positive integers. -/
def clog2 (n : Nat) : Nat := clog2F n n

/-- gif.py `get_palette_bit_depth`: `max(math.ceil(math.log2(colorCount)), 1)`
(for `colorCount ≥ 1`, `clog2` is the ceiling of `log2`). -/
def get_palette_bit_depth (colorCount : Nat) : Nat :=
  max (clog2 colorCount) 1

/-! ### Container writer (gif.py `write_gif`) -/

/-- `struct.pack "<H"` of a value ≤ 0xffff. -/
def le16 (v : Nat) : List Nat := [v % 256, v / 256 % 256]

/-- The sub-block chain of the LZW data: `min(0xff, remaining)`-sized chunks,
each preceded by its size byte (the terminating empty sub-block is written by
the caller). -/
def subblockChunksF : Nat → List Nat → List Nat
  | 0, _ => []
  | fuel + 1, d =>
    if d.isEmpty then []
    else
      let sb := min 255 d.length
      (sb :: d.take sb) ++ subblockChunksF fuel (d.drop sb)

/-- Entry point of the sub-block loop: each iteration consumes at least one
byte of `d`, so `d.length + 1` iterations always suffice. -/
def subblockChunks (d : List Nat) : List Nat :=
  subblockChunksF (d.length + 1) d

/-- gif.py `write_gif`: GIF87a header, LSD with GCT flag and depth, padded
GCT, Image Descriptor, the LZW palette bit depth byte `max(palBits, 2)`, the
sub-block chain, empty sub-block and trailer. -/
def write_gif (width height : Nat) (palette lzwData : List Nat) : List Nat :=
  let palBits := get_palette_bit_depth (palette.length / 3)
  -- Header "GIF87a" and LSD; packedFields = 0x80 | (palBits - 1)
  [71, 73, 70, 56, 55, 97] ++ le16 width ++ le16 height
    ++ [128 + (palBits - 1), 0, 0]
  -- padded GCT
  ++ (palette ++ List.replicate (2 ^ palBits * 3 - palette.length) 0)
  -- Image Descriptor: ',', left 0, top 0, width, height, packedFields 0
  ++ [44] ++ le16 0 ++ le16 0 ++ le16 width ++ le16 height ++ [0]
  ++ [max palBits 2]
  ++ subblockChunks lzwData
  ++ [0, 59]

/-- gif.py `encode_gif`: height from the file size (error when there is a
remainder or the height is out of range), palette, indexed data, LZW palette
bit depth `max(get_palette_bit_depth(...), 2)`, LZW data, written GIF. -/
def encode_gif (noReset : Bool) (width : Nat) (rgb : List Nat) :
    Except Err (List Nat) :=
  let height := rgb.length / (width * 3)
  let remainder := rgb.length % (width * 3)
  if remainder ≠ 0 ∨ height = 0 ∨ 65535 < height then .error .badRgbSize
  else
    match get_palette_from_raw_image rgb with
    | .error e => .error e
    | .ok palette =>
      let imageData := raw_image_to_indexed rgb palette
      let lzwPalBits := max (get_palette_bit_depth (palette.length / 3)) 2
      match lzw_codes_to_bytes noReset lzwPalBits imageData with
      | .error e => .error e
      | .ok lzwData => .ok (write_gif width height palette lzwData)

/-! ### Container reading (gif.py decoding side)

A file handle is the byte list plus a cursor; `read_bytes` fails when fewer
bytes remain (`GifError "unexpected end of file"`); `skip_bytes` only moves
the cursor (seeking past the end of a regular file succeeds in Python and
`tell` reports the requested position, so the check in the source never
fires; a later read fails instead). -/

/-- gif.py `read_bytes`: the bytes and the advanced cursor. -/
def readBytes (data : List Nat) (pos n : Nat) : Except Err (List Nat × Nat) :=
  if pos + n ≤ data.length then .ok ((data.drop pos).take n, pos + n)
  else .error .truncated

/-- The loop of gif.py `read_subblocks`, concatenated by the caller
(`b"".join(read_subblocks(handle))`): given the size of the next sub-block,
read it together with the following size byte. -/
def readSubblocksLoop (data : List Nat) : Nat → Nat → Nat → Except Err (List Nat)
  | 0, _, _ => .error .fuelOut
  | fuel + 1, pos, sbSize =>
    if sbSize = 0 then .ok []
    else
      match readBytes data pos (sbSize + 1) with
      | .error e => .error e
      | .ok (chunk, pos1) =>
        match readSubblocksLoop data fuel pos1 (chunk.getLastD 0) with
        | .error e => .error e
        | .ok rest => .ok (chunk.dropLast ++ rest)

/-- gif.py `read_subblocks` (joined): first size byte, then the loop. -/
def read_subblocks (data : List Nat) (pos : Nat) : Except Err (List Nat) :=
  match readBytes data pos 1 with
  | .error e => .error e
  | .ok (sb, pos1) => readSubblocksLoop data (data.length + 1) pos1 (sb.getD 0 0)

/-- gif.py `skip_subblocks`: advance the cursor past a sub-block chain. -/
def skipSubblocksLoop (data : List Nat) : Nat → Nat → Nat → Except Err Nat
  | 0, _, _ => .error .fuelOut
  | fuel + 1, pos, sbSize =>
    if sbSize = 0 then .ok pos
    else
      match readBytes data (pos + sbSize) 1 with
      | .error e => .error e
      | .ok (sb, pos1) => skipSubblocksLoop data fuel pos1 (sb.getD 0 0)

/-- gif.py `skip_subblocks` entry: read the first size byte, then loop. -/
def skip_subblocks (data : List Nat) (pos : Nat) : Except Err Nat :=
  match readBytes data pos 1 with
  | .error e => .error e
  | .ok (sb, pos1) => skipSubblocksLoop data (data.length + 1) pos1 (sb.getD 0 0)

/-- Result of gif.py `read_image_info`. -/
structure ImageInfo where
  width : Nat
  height : Nat
  interlace : Bool
  lctAddr : Option Nat
  lctBits : Option Nat
  lzwPalBits : Nat
  lzwAddr : Nat
  deriving Repr

/-- gif.py `read_image_info`: 9 bytes `<4x2HB` (left/top skipped, width,
height little-endian, packed fields), zero-area check, optional LCT, the LZW
palette bit depth byte validated to lie in `[2, 11]`. -/
def read_image_info (data : List Nat) (pos : Nat) : Except Err (ImageInfo × Nat) :=
  match readBytes data pos 9 with
  | .error e => .error e
  | .ok (hdr, pos1) =>
    let width := hdr.getD 4 0 + 256 * hdr.getD 5 0
    let height := hdr.getD 6 0 + 256 * hdr.getD 7 0
    let packed := hdr.getD 8 0
    if width = 0 ∨ height = 0 then .error .areaZero
    else
      let lct : Option Nat × Option Nat × Nat :=
        if packed.testBit 7 then
          let lctBits := packed % 8 + 1
          (some pos1, some lctBits, pos1 + 2 ^ lctBits * 3)
        else (none, none, pos1)
      match readBytes data lct.2.2 1 with
      | .error e => .error e
      | .ok (lzwB, pos2) =>
        let lzwPalBits := lzwB.getD 0 0
        if lzwPalBits < 2 ∨ 11 < lzwPalBits then .error .badLzwBits
        else .ok ({ width := width, height := height,
                    interlace := packed.testBit 6,
                    lctAddr := lct.1, lctBits := lct.2.1,
                    lzwPalBits := lzwPalBits, lzwAddr := pos2 }, pos2)

/-- gif.py `skip_extension_block`: label byte, then for labels 0x01, 0xF9,
0xFF one sized block plus sub-blocks, for 0xFE sub-blocks only, otherwise
`GifError "invalid Extension label"`. -/
def skip_extension_block (data : List Nat) (pos : Nat) : Except Err Nat :=
  match readBytes data pos 1 with
  | .error e => .error e
  | .ok (lbl, pos1) =>
    let label := lbl.getD 0 0
    if label = 1 ∨ label = 249 ∨ label = 255 then
      match readBytes data pos1 1 with
      | .error e => .error e
      | .ok (szb, pos2) => skip_subblocks data (pos2 + szb.getD 0 0)
    else if label = 254 then skip_subblocks data pos1
    else .error .badExt

/-- gif.py `read_first_image_info`: walk the block stream; `','` introduces
the first image, `'!'` an extension to skip, `';'` the trailer (no image). -/
def readFirstImageInfo (data : List Nat) : Nat → Nat → Except Err (Option (ImageInfo × Nat))
  | 0, _ => .error .fuelOut
  | fuel + 1, pos =>
    match readBytes data pos 1 with
    | .error e => .error e
    | .ok (bt, pos1) =>
      let blockType := bt.getD 0 0
      if blockType = 44 then
        match read_image_info data pos1 with
        | .error e => .error e
        | .ok info => .ok (some info)
      else if blockType = 33 then
        match skip_extension_block data pos1 with
        | .error e => .error e
        | .ok pos2 => readFirstImageInfo data fuel pos2
      else if blockType = 59 then .ok none
      else .error .badBlock

/-- Result of gif.py `read_gif`. -/
structure GifInfo where
  width : Nat
  height : Nat
  interlace : Bool
  palAddr : Nat
  palBits : Nat
  lzwPalBits : Nat
  lzwAddr : Nat
  deriving Repr

/-- gif.py `read_gif`: header and LSD (13 bytes, magic `"GIF"`, packed
fields at offset 10), optional GCT, then the first image; the LCT overrides
the GCT, no palette at all is an error. -/
def read_gif (data : List Nat) : Except Err GifInfo :=
  match readBytes data 0 13 with
  | .error e => .error e
  | .ok (hdr, pos1) =>
    if hdr.take 3 ≠ [71, 73, 70] then .error .notGif
    else
      let packed := hdr.getD 10 0
      let gct : Option (Nat × Nat) × Nat :=
        if packed.testBit 7 then
          let palBits := packed % 8 + 1
          (some (pos1, palBits), pos1 + 2 ^ palBits * 3)
        else (none, pos1)
      match readFirstImageInfo data (data.length + 1) gct.2 with
      | .error e => .error e
      | .ok none => .error .noImages
      | .ok (some (info, _)) =>
        match info.lctAddr, info.lctBits with
        | some lctAddr, some lctBits =>
          .ok { width := info.width, height := info.height,
                interlace := info.interlace, palAddr := lctAddr,
                palBits := lctBits, lzwPalBits := info.lzwPalBits,
                lzwAddr := info.lzwAddr }
        | _, _ =>
          match gct.1 with
          | none => .error .noPalette
          | some (palAddr, palBits) =>
            .ok { width := info.width, height := info.height,
                  interlace := info.interlace, palAddr := palAddr,
                  palBits := palBits, lzwPalBits := info.lzwPalBits,
                  lzwAddr := info.lzwAddr }

/-- Python `max` over a byte string (callers guard against emptiness). -/
def listMax : List Nat → Nat
  | [] => 0
  | b :: r => max b (listMax r)

/-- The final write loop of gif.py `decode_gif`: each index is expanded to
its 3-byte palette color; an index beyond the palette tuple is an uncaught
Python `IndexError`. -/
def expandRgb (palT : List (List Nat)) : List Nat → Except Err (List Nat)
  | [] => .ok []
  | i :: rest =>
    match palT.get? i with
    | none => .error .indexErr
    | some c =>
      match expandRgb palT rest with
      | .error e => .error e
      | .ok r => .ok (c ++ r)

/-- The pipeline prefix of gif.py `decode_gif`: parse the container, read
the effective palette, join the sub-blocks, LZW-decode.  Split out so that
claims can speak about the decoded indices. -/
def decodePipeline (gif : List Nat) : Except Err (GifInfo × List Nat × List Nat) :=
  match read_gif gif with
  | .error e => .error e
  | .ok info =>
    match readBytes gif info.palAddr (2 ^ info.palBits * 3) with
    | .error e => .error e
    | .ok (palette, _) =>
      match read_subblocks gif info.lzwAddr with
      | .error e => .error e
      | .ok lzwBytes =>
        match lzw_decode lzwBytes info.lzwPalBits with
        | .error e => .error e
        | .ok imageData => .ok (info, palette, imageData)

/-- gif.py `decode_gif`: the pipeline, the index validation
(`lzwPalBits > palBits and max(imageData) >= 2 ** palBits`, where `max` of
an empty byte string is an uncaught `ValueError`), optional deinterlacing,
and the palette expansion. -/
def decode_gif (gif : List Nat) : Except Err (List Nat) :=
  match decodePipeline gif with
  | .error e => .error e
  | .ok (info, palette, imageData) =>
    if info.palBits < info.lzwPalBits then
      if imageData.isEmpty then .error .valueErr
      else if 2 ^ info.palBits ≤ listMax imageData then .error .badIndex
      else
        let d := if info.interlace then (deinterlace_image imageData info.width).flatten
                 else imageData
        expandRgb (paletteTriples palette) d
    else
      let d := if info.interlace then (deinterlace_image imageData info.width).flatten
               else imageData
      expandRgb (paletteTriples palette) d

/-- A minimal GIF container accepted by `read_gif`: `"GIF89a"`, 1x1 logical
screen with a 2-color global palette, one 1x1 image with LZW bit depth 2
(the LZW data itself is irrelevant to the parser). -/
def c6gif : List Nat :=
  [71, 73, 70, 56, 57, 97, 1, 0, 1, 0, 128, 0, 0,
   0, 0, 0, 255, 255, 255,
   44, 0, 0, 0, 0, 1, 0, 1, 0, 0, 2]

/-- The parse result of `c6gif`. -/
def c6info : GifInfo :=
  { width := 1, height := 1, interlace := false, palAddr := 13,
    palBits := 1, lzwPalBits := 2, lzwAddr := 30 }

/-- A 17x1 raw RGB image of two colors: pixel `i` is `(p_i, 0, 0)` with
the bit pattern `p = 00000101001011011`. -/
def c1rgb : List Nat :=
  [0, 0, 0, 0, 0, 1, 0, 1, 0, 0, 1, 0, 1, 1, 0, 1, 1].flatMap (fun i => [i, 0, 0])

/-- The GIF stream `encode_gif` produces for `c1rgb` (39 bytes, identical
to the output of `src/gif.py`). -/
def c1gif : List Nat :=
  [71, 73, 70, 56, 55, 97, 17, 0, 1, 0, 128, 0, 0, 0, 0, 0, 1, 0, 0, 44, 0, 0, 0, 0, 17, 0, 1, 0, 0, 2, 6, 132, 29, 144, 170, 25, 81, 0, 59]

/-! ## Theorems -/

/-- C2, the claim as frozen is false on the code: decoding the 3-byte LZW
stream `[0x8C, 0x2D, 0x01]` with `palBits = 2` does not succeed — after the
codes 4 (CLEAR), 1, 6, 6 (width 3) and 2, 1, 0 (width 4) the reader needs a
fourth byte and fails with "unexpected end of file". -/
theorem c2_counterexample :
    lzw_decode [140, 45, 1] 2 = .error .truncated ∧
      lzw_decode [140, 45, 1] 2 ≠ .ok [1, 1, 1, 1, 1, 2] := by
  refine ⟨rfl, fun h => ?_⟩
  have h2 : lzw_decode [140, 45, 1] 2 = .error .truncated := rfl
  rw [h2] at h
  exact Except.noConfusion h

/-- C2 amended: the KwKwK vector for this codec is `[0x8C, 0x2D, 0x05]`
(same first two bytes, end code `5` read at width 4 in the third byte);
decoding it with `palBits = 2` yields exactly `[1, 1, 1, 1, 1, 2]`. -/
theorem c2_kwkwk_vector :
    lzw_decode [140, 45, 5] 2 = .ok [1, 1, 1, 1, 1, 2] := rfl

/-- C7, the claim as frozen is false on the code: it sizes the third
interlace block as `⌈H/4⌉`, but at height 6 the code reads only one row for
pass 3 — destination row 1 comes from source row 3
(`group4Start = (6+1)/2 = 3`), while the claimed block sizes
1, 1, 2 put it at source row 4. -/
theorem c7_counterexample :
    deinterlace_image [0, 1, 2, 3, 4, 5] 1 = [[0], [3], [2], [4], [1], [5]] ∧
      deinterlaceSrcRow 6 1 = 3 ∧ claimedDeinterlaceSrcRow 6 1 = 4 := by
  decide

/-- C7 amended: `deinterlace_image` reads the interlaced source as four
successive row blocks of sizes `g1 = ⌈H/8⌉ = (H+7)/8`,
`g2 = (H+3)/4 − g1`, `g3 = (H+1)/2 − (H+3)/4` (not the claimed `⌈H/4⌉`) and
`g4 = ⌊H/2⌋ = H − (H+1)/2`, assigning them in order to destination rows
`0,8,16,…`; `4,12,20,…`; `2,6,10,…`; `1,3,5,…`: the sizes sum to `H`, each
size counts exactly the destination rows of its pass, and the `k`-th row of
each block lands at the stated destination. -/
theorem c7_interlace_blocks (H width : Nat) (data : List Nat)
    (hw : 0 < width) (hH : 1 ≤ H) (hlen : data.length = H * width) :
    ((H + 7) / 8 + ((H + 3) / 4 - (H + 7) / 8) + ((H + 1) / 2 - (H + 3) / 4)
        + (H - (H + 1) / 2) = H) ∧
    (∀ k, (k < (H + 7) / 8 ↔ 8 * k < H)) ∧
    (∀ k, (k < (H + 3) / 4 - (H + 7) / 8 ↔ 8 * k + 4 < H)) ∧
    (∀ k, (k < (H + 1) / 2 - (H + 3) / 4 ↔ 4 * k + 2 < H)) ∧
    (∀ k, (k < H - (H + 1) / 2 ↔ 2 * k + 1 < H)) ∧
    (∀ k, 8 * k < H →
      (deinterlace_image data width).getD (8 * k) []
        = (data.drop (k * width)).take width) ∧
    (∀ k, 8 * k + 4 < H →
      (deinterlace_image data width).getD (8 * k + 4) []
        = (data.drop (((H + 7) / 8 + k) * width)).take width) ∧
    (∀ k, 4 * k + 2 < H →
      (deinterlace_image data width).getD (4 * k + 2) []
        = (data.drop (((H + 3) / 4 + k) * width)).take width) ∧
    (∀ k, 2 * k + 1 < H →
      (deinterlace_image data width).getD (2 * k + 1) []
        = (data.drop (((H + 1) / 2 + k) * width)).take width) := by
  have hheight : data.length / width = H := by
    rw [hlen]
    exact Nat.mul_div_cancel H hw
  have hrow : ∀ dy, dy < H →
      (deinterlace_image data width).getD dy []
        = (data.drop (deinterlaceSrcRow H dy * width)).take width := by
    intro dy hdy
    simp only [deinterlace_image, hheight]
    rw [List.getD_eq_getElem?_getD, List.getElem?_map, List.getElem?_range hdy]
    rfl
  refine ⟨by omega, fun k => by omega, fun k => by omega, fun k => by omega,
    fun k => by omega, ?_, ?_, ?_, ?_⟩
  · intro k hk
    rw [hrow _ (by omega)]
    have hsy : deinterlaceSrcRow H (8 * k) = k := by
      unfold deinterlaceSrcRow
      rw [if_pos (by omega)]
      omega
    rw [hsy]
  · intro k hk
    rw [hrow _ (by omega)]
    have hsy : deinterlaceSrcRow H (8 * k + 4) = (H + 7) / 8 + k := by
      unfold deinterlaceSrcRow
      rw [if_neg (by omega), if_pos (by omega)]
      omega
    rw [hsy]
  · intro k hk
    rw [hrow _ (by omega)]
    have hsy : deinterlaceSrcRow H (4 * k + 2) = (H + 3) / 4 + k := by
      unfold deinterlaceSrcRow
      rw [if_neg (by omega), if_neg (by omega), if_pos (by omega)]
      omega
    rw [hsy]
  · intro k hk
    rw [hrow _ (by omega)]
    have hsy : deinterlaceSrcRow H (2 * k + 1) = (H + 1) / 2 + k := by
      unfold deinterlaceSrcRow
      rw [if_neg (by omega), if_neg (by omega), if_neg (by omega)]
      omega
    rw [hsy]

/-- Witness for `c7_interlace_blocks` at height 6, width 1: destination row
4 (the one pass-2 row) comes from source row 1. -/
theorem c7_interlace_blocks_witness :
    (deinterlace_image [0, 1, 2, 3, 4, 5] 1).getD 4 [] = [1] := by
  have h := c7_interlace_blocks 6 1 [0, 1, 2, 3, 4, 5] (by decide) (by decide)
    (by decide)
  have h2 := h.2.2.2.2.2.2.1 0 (by decide)
  simpa using h2

/-! ### Arithmetic of the encoder code width -/

theorem encWidth_lb (p n : Nat) (hp : p ≤ 8) : p + 1 ≤ encWidth p n := by
  unfold encWidth
  exact le_min (by omega) (le_max_left _ _)

theorem encWidth_ub (p n : Nat) : encWidth p n ≤ 12 :=
  min_le_left _ _

theorem encWidth_pow_ge (p n : Nat) (hn : n ≤ 4094) : n + 2 ≤ 2 ^ encWidth p n := by
  unfold encWidth
  rcases le_total (max (p + 1) (Nat.clog 2 (n + 2))) 12 with h | h
  · rw [min_eq_right h]
    calc n + 2 ≤ 2 ^ Nat.clog 2 (n + 2) := Nat.le_pow_clog (by norm_num) _
    _ ≤ 2 ^ max (p + 1) (Nat.clog 2 (n + 2)) :=
        Nat.pow_le_pow_right (by norm_num) (le_max_right _ _)
  · rw [min_eq_left h]
    norm_num
    omega

theorem clog_two_pow_add_two (p : Nat) (hp : 2 ≤ p) :
    Nat.clog 2 (2 ^ p + 2) = p + 1 := by
  apply le_antisymm
  · rw [← Nat.le_pow_iff_clog_le (by norm_num)]
    have h1 : 2 ≤ 2 ^ p := by
      calc (2 : Nat) = 2 ^ 1 := (pow_one 2).symm
      _ ≤ 2 ^ p := Nat.pow_le_pow_right (by norm_num) (by omega)
    have h2 : (2 : Nat) ^ (p + 1) = 2 ^ p + 2 ^ p := by ring
    omega
  · have h1 : (2 : Nat) ^ p < 2 ^ p + 2 := by omega
    exact (Nat.pow_lt_iff_lt_clog (by norm_num)).mp h1

theorem encWidth_init (p : Nat) (h2 : 2 ≤ p) (h8 : p ≤ 8) :
    encWidth p (2 ^ p) = p + 1 := by
  unfold encWidth
  rw [clog_two_pow_add_two p h2, max_self, min_eq_right (by omega)]

theorem encWidth_succ_eq (p n : Nat) :
    encWidth p (n + 1) = min 12 (max (p + 1) (Nat.clog 2 (n + 3))) := by
  unfold encWidth
  norm_num

theorem encWidth_step (p n : Nat) (h2 : 2 ≤ p) (h8 : p ≤ 8)
    (hn : 2 ^ p ≤ n) (hub : n ≤ 4093) :
    encWidth p (n + 1) =
      if 2 ^ encWidth p n - 2 < n + 1 then encWidth p n + 1 else encWidth p n := by
  have hlb := encWidth_lb p n h8
  have hup := encWidth_ub p n
  have hge := encWidth_pow_ge p n (by omega)
  have hpow3 : (8 : Nat) ≤ 2 ^ encWidth p n := by
    calc (8 : Nat) = 2 ^ 3 := by norm_num
    _ ≤ 2 ^ encWidth p n := Nat.pow_le_pow_right (by norm_num) (by omega)
  by_cases hcond : 2 ^ encWidth p n < n + 3
  · -- the insertion crosses the width boundary: n + 2 = 2 ^ encWidth p n
    have heq : n + 2 = 2 ^ encWidth p n := by omega
    have hlt12 : encWidth p n < 12 := by
      rcases lt_or_ge (encWidth p n) 12 with h | h
      · exact h
      · exfalso
        have h12 : encWidth p n = 12 := by omega
        rw [h12] at heq
        norm_num at heq
        omega
    have hclog : Nat.clog 2 (n + 3) = encWidth p n + 1 := by
      apply le_antisymm
      · rw [← Nat.le_pow_iff_clog_le (by norm_num)]
        have h3 : (2 : Nat) ^ (encWidth p n + 1) = 2 ^ encWidth p n + 2 ^ encWidth p n := by
          ring
        omega
      · exact (Nat.pow_lt_iff_lt_clog (by norm_num)).mp hcond
    rw [encWidth_succ_eq, hclog, if_pos (by omega)]
    omega
  · -- no boundary crossed: the width is unchanged
    have hclog_le : Nat.clog 2 (n + 3) ≤ encWidth p n := by
      rw [← Nat.le_pow_iff_clog_le (by norm_num)]
      omega
    have hclog_ge : Nat.clog 2 (n + 2) ≤ Nat.clog 2 (n + 3) :=
      Nat.clog_mono_right 2 (by omega)
    have hdef : encWidth p n = min 12 (max (p + 1) (Nat.clog 2 (n + 2))) := rfl
    rw [encWidth_succ_eq, if_neg (by omega)]
    omega

/-! ### Encoder dictionary lemmas -/

theorem encInitDict_length (p : Nat) : (encInitDict p).length = 2 ^ p := by
  simp [encInitDict]

theorem encLookup_map_single (b : Nat) (l : List Nat) (hb : b ∈ l) :
    encLookup (l.map fun i => ([i], i)) [b] = some b := by
  induction l with
  | nil => cases hb
  | cons a t ih =>
    simp only [List.map_cons, encLookup]
    by_cases h : ([a] : List Nat) = [b]
    · have hab : a = b := by injection h
      simp [h, hab]
    · have hbt : b ∈ t := by
        rcases List.mem_cons.mp hb with h1 | h1
        · exact absurd (by rw [h1]) h
        · exact h1
      simp [h, ih hbt]

theorem encLookup_append_some (xs ys : EDict) (k : List Nat) (v : Nat)
    (h : encLookup xs k = some v) : encLookup (xs ++ ys) k = some v := by
  induction xs with
  | nil => simp [encLookup] at h
  | cons a t ih =>
    obtain ⟨ka, va⟩ := a
    simp only [encLookup, List.cons_append] at h ⊢
    by_cases hk : ka = k
    · simpa [hk] using h
    · rw [if_neg hk] at h ⊢
      exact ih h

theorem encLookup_root (p : Nat) (d : EDict) (hd : EncWF p d) (b : Nat)
    (hb : b < 2 ^ p) : encLookup d [b] = some b := by
  obtain ⟨rest, rfl, _⟩ := hd
  exact encLookup_append_some _ _ _ _
    (encLookup_map_single b _ (List.mem_range.mpr hb))

theorem encLookup_mem_snd (d : EDict) (k : List Nat) (v : Nat)
    (h : encLookup d k = some v) : v ∈ d.map Prod.snd := by
  induction d with
  | nil => simp [encLookup] at h
  | cons a t ih =>
    obtain ⟨ka, va⟩ := a
    simp only [encLookup] at h
    by_cases hk : ka = k
    · rw [if_pos hk] at h
      simp [Option.some_inj.mp h]
    · rw [if_neg hk] at h
      simp [ih h]

theorem encInitDict_map_snd (p : Nat) :
    (encInitDict p).map Prod.snd = List.range (2 ^ p) := by
  unfold encInitDict
  rw [List.map_map]
  exact List.map_id _

theorem encWF_val (p : Nat) (d : EDict) (hd : EncWF p d) (k : List Nat) (v : Nat)
    (h : encLookup d k = some v) :
    v < d.length + 2 ∧ v ≠ 2 ^ p ∧ v ≠ 2 ^ p + 1 := by
  obtain ⟨rest, rfl, hsnd⟩ := hd
  have hv := encLookup_mem_snd _ _ _ h
  rw [List.map_append, hsnd, encInitDict_map_snd] at hv
  have hlen : (encInitDict p ++ rest).length = 2 ^ p + rest.length := by
    rw [List.length_append, encInitDict_length]
  rcases List.mem_append.mp hv with h1 | h1
  · have := List.mem_range.mp h1
    omega
  · have := List.mem_range'_1.mp h1
    omega

theorem encWF_init (p : Nat) : EncWF p (encInitDict p) :=
  ⟨[], by simp, by simp⟩

theorem encWF_append (p : Nat) (d : EDict) (entry : List Nat) (hd : EncWF p d) :
    EncWF p (d ++ [(entry, d.length + 2)]) := by
  obtain ⟨rest, rfl, hsnd⟩ := hd
  refine ⟨rest ++ [(entry, (encInitDict p ++ rest).length + 2)],
    by rw [List.append_assoc], ?_⟩
  rw [List.map_append, hsnd, List.map_singleton]
  simp only [List.length_append, List.length_singleton, encInitDict_length]
  rw [List.range'_1_concat]
  congr 1
  simp
  omega

/-! ### Longest-match lemmas -/

theorem findLongest_some_of_best (d : EDict) :
    ∀ (rem pfx : List Nat) (c l : Nat),
      ∃ out, findLongest d pfx (some (c, l)) rem = some out := by
  intro rem
  induction rem with
  | nil => exact fun pfx c l => ⟨(c, l), rfl⟩
  | cons b rest ih =>
    intro pfx c l
    simp only [findLongest]
    cases hE : encLookup d (pfx ++ [b]) with
    | none => exact ⟨(c, l), rfl⟩
    | some c1 => exact ih (pfx ++ [b]) c1 (pfx ++ [b]).length

theorem findLongest_spec (d : EDict) :
    ∀ (rem pfx : List Nat) (best : Option (Nat × Nat)) (c l : Nat),
      findLongest d pfx best rem = some (c, l) →
      (∀ cb lb, best = some (cb, lb) → lb = pfx.length ∧ encLookup d pfx = some cb) →
      pfx.length ≤ l ∧ l ≤ pfx.length + rem.length ∧
        encLookup d ((pfx ++ rem).take l) = some c ∧
        (l = pfx.length + rem.length ∨ encLookup d ((pfx ++ rem).take (l + 1)) = none) ∧
        (best = none → pfx.length + 1 ≤ l) := by
  intro rem
  induction rem with
  | nil =>
    intro pfx best c l hout hinv
    simp only [findLongest] at hout
    obtain ⟨hl, hlk⟩ := hinv c l hout
    subst hl
    refine ⟨le_refl _, by simp, ?_, Or.inl (by simp), ?_⟩
    · simpa using hlk
    · intro hn
      rw [hn] at hout
      exact Option.noConfusion hout
  | cons b rest ih =>
    intro pfx best c l hout hinv
    simp only [findLongest] at hout
    cases hE : encLookup d (pfx ++ [b]) with
    | some c1 =>
      rw [hE] at hout
      have hinv1 : ∀ cb lb, some ((c1 : Nat), (pfx ++ [b]).length) = some (cb, lb) →
          lb = (pfx ++ [b]).length ∧ encLookup d (pfx ++ [b]) = some cb := by
        intro cb lb hbe
        have h1 : cb = c1 ∧ lb = (pfx ++ [b]).length := by
          constructor <;> · injection hbe with h2; cases h2; rfl
        refine ⟨h1.2, ?_⟩
        rw [h1.1.symm] at hE
        exact hE
      have := ih (pfx ++ [b]) (some (c1, (pfx ++ [b]).length)) c l hout hinv1
      obtain ⟨ha, hb2, hc2, hd2, _⟩ := this
      rw [List.length_append, List.length_singleton] at ha hb2 hd2
      have hre : (pfx ++ [b]) ++ rest = pfx ++ b :: rest := by
        rw [List.append_assoc, List.singleton_append]
      rw [hre] at hc2 hd2
      refine ⟨by omega, by simp; omega, hc2, ?_, fun _ => by omega⟩
      rcases hd2 with h1 | h1
      · exact Or.inl (by simp; omega)
      · exact Or.inr h1
    | none =>
      rw [hE] at hout
      obtain ⟨hl, hlk⟩ := hinv c l hout
      subst hl
      have htake : (pfx ++ b :: rest).take pfx.length = pfx := by
        rw [List.take_append_eq_append_take, Nat.sub_self, List.take_zero,
          List.append_nil, List.take_of_length_le (le_refl _)]
      have htake1 : (pfx ++ b :: rest).take (pfx.length + 1) = pfx ++ [b] := by
        rw [List.take_append_eq_append_take]
        congr 1
        · exact List.take_of_length_le (by omega)
        · simp
      refine ⟨le_refl _, by simp, by rw [htake]; exact hlk,
        Or.inr (by rw [htake1]; exact hE), ?_⟩
      intro hn
      rw [hn] at hout
      exact (Option.noConfusion hout)

theorem findLongest_head_some (d : EDict) (b : Nat) (rest : List Nat) (c : Nat)
    (h : encLookup d [b] = some c) :
    ∃ out, findLongest d [] none (b :: rest) = some out := by
  simp only [findLongest, List.nil_append, h]
  exact findLongest_some_of_best d rest [b] c _

/-! ### Encoder output shape -/

theorem encWF_length_ge (p : Nat) (d : EDict) (hd : EncWF p d) :
    2 ^ p ≤ d.length := by
  obtain ⟨rest, rfl, _⟩ := hd
  rw [List.length_append, encInitDict_length]
  omega

theorem two_le_two_pow (p : Nat) (hp : 1 ≤ p) : 2 ≤ 2 ^ p := by
  calc (2 : Nat) = 2 ^ 1 := (pow_one 2).symm
  _ ≤ 2 ^ p := Nat.pow_le_pow_right (by norm_num) hp

theorem encOut_end (p w : Nat) (h2 : 2 ≤ p) (hw1 : p + 1 ≤ w) (hw2 : w ≤ 12) :
    EncOut p w [(2 ^ p + 1, w)] := by
  have hp2 : (2 : Nat) ^ (p + 1) ≤ 2 ^ w := Nat.pow_le_pow_right (by norm_num) hw1
  have hpp : (2 : Nat) ^ (p + 1) = 2 ^ p + 2 ^ p := by ring
  have hp1 := two_le_two_pow p (by omega)
  refine ⟨rfl, ?_, List.chain'_singleton _, ⟨w, rfl⟩, ?_⟩
  · intro cw hcw
    rcases List.mem_singleton.mp hcw with rfl
    refine ⟨hw1, hw2, ?_⟩
    show 2 ^ p + 1 < 2 ^ w
    omega
  · simp

theorem encOut_cons (p cnext : Nat) (codes : List (Nat × Nat))
    (h : EncOut p cnext codes) (c w : Nat)
    (hw1 : p + 1 ≤ w) (hw2 : w ≤ 12) (hcw : c < 2 ^ w) (hne : c ≠ 2 ^ p + 1)
    (hadj1 : c = 2 ^ p → cnext = p + 1)
    (hadj2 : c ≠ 2 ^ p → w ≤ cnext ∧ cnext ≤ w + 1) :
    EncOut p w ((c, w) :: codes) := by
  obtain ⟨hhead, hall, hchain, hlast, hmid⟩ := h
  obtain ⟨y, t, rfl⟩ : ∃ y t, codes = y :: t := by
    cases codes with
    | nil => simp at hhead
    | cons y t => exact ⟨y, t, rfl⟩
  have hy2 : y.2 = cnext := by
    simp only [List.head?_cons, Option.map_some'] at hhead
    exact Option.some_inj.mp hhead
  refine ⟨rfl, ?_, ?_, ?_, ?_⟩
  · intro cw hcwm
    rcases List.mem_cons.mp hcwm with h1 | h1
    · rw [h1]
      exact ⟨hw1, hw2, hcw⟩
    · exact hall cw h1
  · exact List.chain'_cons.mpr
      ⟨⟨fun hc => hy2 ▸ hadj1 hc, fun hc => hy2 ▸ hadj2 hc⟩, hchain⟩
  · obtain ⟨w', hw'⟩ := hlast
    exact ⟨w', by rw [List.getLast?_cons_cons]; exact hw'⟩
  · intro cw hcwm
    rw [List.dropLast_cons₂] at hcwm
    rcases List.mem_cons.mp hcwm with h1 | h1
    · rw [h1]
      exact hne
    · exact hmid cw h1

/-- The central encoder invariant run: from any state whose dictionary is
well-formed and whose code length matches `encWidth` of the dictionary size,
`lzwEncLoop` succeeds (given enough fuel) and its output satisfies `EncOut`. -/
theorem encLoop_spec (noReset : Bool) (p : Nat) (input : List Nat)
    (h2 : 2 ≤ p) (h8 : p ≤ 8) (hb : ∀ b ∈ input, b < 2 ^ p) :
    ∀ (fuel pos codeLen : Nat) (d : EDict), input.length - pos < fuel →
      EncWF p d → codeLen = encWidth p d.length → d.length ≤ 4094 →
      ∃ codes, lzwEncLoop noReset p input fuel pos codeLen d = .ok codes ∧
        EncOut p codeLen codes := by
  intro fuel
  induction fuel with
  | zero =>
    intro pos codeLen d hfuel _ _ _
    omega
  | succ fuel ih =>
    intro pos codeLen d hfuel hwf hcl hdlen
    have hlb : p + 1 ≤ codeLen := hcl ▸ encWidth_lb p d.length h8
    have hub : codeLen ≤ 12 := hcl ▸ encWidth_ub p d.length
    have hpow : d.length + 2 ≤ 2 ^ codeLen := hcl ▸ encWidth_pow_ge p d.length hdlen
    have hdge : 2 ^ p ≤ d.length := encWF_length_ge p d hwf
    have hclear_lt : 2 ^ p < 2 ^ codeLen := by
      have h1 := two_le_two_pow p (by omega)
      have hpp : (2 : Nat) ^ (p + 1) = 2 ^ p + 2 ^ p := by ring
      have h2 : (2 : Nat) ^ (p + 1) ≤ 2 ^ codeLen :=
        Nat.pow_le_pow_right (by norm_num) hlb
      omega
    by_cases hpos : pos < input.length
    · -- there is input left: a longest match is found and consumed
      have hdrop : input.drop pos ≠ [] := by
        intro he
        have := List.drop_eq_nil_iff_le.mp he
        omega
      obtain ⟨b0, rest0, hbr⟩ := List.exists_cons_of_ne_nil hdrop
      have hb0 : b0 < 2 ^ p := by
        apply hb
        apply List.mem_of_mem_drop (n := pos)
        rw [hbr]
        exact List.mem_cons_self _ _
      obtain ⟨⟨code, elen⟩, hfl⟩ :
          ∃ out, findLongest d [] none (input.drop pos) = some out := by
        rw [hbr]
        exact findLongest_head_some d b0 rest0 b0 (encLookup_root p d hwf b0 hb0)
      have hspec := findLongest_spec d (input.drop pos) [] none code elen hfl
        (fun _ _ h => by cases h)
      simp only [List.length_nil, List.nil_append, Nat.zero_add] at hspec
      obtain ⟨-, helen_le, hlook, -, helen_ge⟩ := hspec
      have helen1 : 1 ≤ elen := helen_ge trivial
      obtain ⟨hcode_lt, hcne_clear, hcne_end⟩ := encWF_val p d hwf _ _ hlook
      have hcodelt : code < 2 ^ codeLen := by omega
      simp only [lzwEncLoop, if_pos hpos, hfl]
      by_cases hpos1 : pos + elen < input.length
      · rw [if_pos hpos1]
        by_cases hfull : d.length < 2 ^ 12 - 2
        · -- add an entry, possibly growing the code length
          rw [if_pos hfull]
          have hstep : (if 2 ^ codeLen - 2 <
                (d ++ [((input.drop pos).take elen ++ [input.getD (pos + elen) 0],
                  d.length + 2)]).length
              then codeLen + 1 else codeLen) = encWidth p (d.length + 1) := by
            rw [List.length_append, List.length_singleton]
            rw [hcl, encWidth_step p d.length h2 h8 hdge (by omega)]
          obtain ⟨codes1, hrun1, hout1⟩ := ih (pos + elen) (encWidth p (d.length + 1))
            (d ++ [((input.drop pos).take elen ++ [input.getD (pos + elen) 0],
              d.length + 2)])
            (by omega) (encWF_append p d _ hwf)
            (by rw [List.length_append, List.length_singleton])
            (by simp only [List.length_append, List.length_singleton]; omega)
          rw [hstep, hrun1]
          refine ⟨(code, codeLen) :: codes1, rfl, ?_⟩
          have hnext1 : codeLen ≤ encWidth p (d.length + 1) ∧
              encWidth p (d.length + 1) ≤ codeLen + 1 := by
            rw [encWidth_step p d.length h2 h8 hdge (by omega), ← hcl]
            split <;> omega
          exact encOut_cons p _ codes1 hout1 code codeLen hlb hub hcodelt hcne_end
            (fun hc => absurd hc hcne_clear) (fun _ => hnext1)
        · rw [if_neg hfull]
          by_cases hnr : noReset
          · -- frozen dictionary: continue with the same state
            simp only [if_pos hnr]
            obtain ⟨codes1, hrun1, hout1⟩ := ih (pos + elen) codeLen d
              (by omega) hwf hcl hdlen
            rw [hrun1]
            refine ⟨(code, codeLen) :: codes1, rfl, ?_⟩
            exact encOut_cons p _ codes1 hout1 code codeLen hlb hub hcodelt hcne_end
              (fun hc => absurd hc hcne_clear) (fun _ => by omega)
          · -- emit a clear code, reset dictionary and code length
            simp only [if_neg hnr]
            obtain ⟨codes1, hrun1, hout1⟩ := ih (pos + elen) (p + 1) (encInitDict p)
              (by omega) (encWF_init p)
              (by rw [encInitDict_length, encWidth_init p h2 h8])
              (by rw [encInitDict_length]
                  have h256 : (2 : Nat) ^ p ≤ 2 ^ 8 :=
                    Nat.pow_le_pow_right (by norm_num) h8
                  omega)
            rw [hrun1]
            refine ⟨(code, codeLen) :: (2 ^ p, codeLen) :: codes1, rfl, ?_⟩
            have hclear : EncOut p codeLen ((2 ^ p, codeLen) :: codes1) :=
              encOut_cons p _ codes1 hout1 (2 ^ p) codeLen hlb hub hclear_lt
                (by omega) (fun _ => rfl) (fun hc => absurd rfl hc)
            exact encOut_cons p _ _ hclear code codeLen hlb hub hcodelt hcne_end
              (fun hc => absurd hc hcne_clear) (fun _ => by omega)
      · -- input exhausted after this code
        rw [if_neg hpos1]
        obtain ⟨codes1, hrun1, hout1⟩ := ih (pos + elen) codeLen d
          (by omega) hwf hcl hdlen
        rw [hrun1]
        refine ⟨(code, codeLen) :: codes1, rfl, ?_⟩
        exact encOut_cons p _ codes1 hout1 code codeLen hlb hub hcodelt hcne_end
          (fun hc => absurd hc hcne_clear) (fun _ => by omega)
    · -- no input: the end code at the current width
      simp only [lzwEncLoop, if_neg hpos]
      exact ⟨[(2 ^ p + 1, codeLen)], rfl, encOut_end p codeLen h2 hlb hub⟩

/-- Every first code of a `lzwEncLoop` output is emitted at the state's
current code length (one unfolding of the loop, all branches). -/
theorem encLoop_head_width (noReset : Bool) (p : Nat) (input : List Nat) :
    ∀ (fuel pos codeLen : Nat) (d : EDict) (codes : List (Nat × Nat)),
      lzwEncLoop noReset p input fuel pos codeLen d = .ok codes →
      codes.head?.map Prod.snd = some codeLen := by
  intro fuel pos codeLen d codes h
  cases fuel with
  | zero => exact Except.noConfusion h
  | succ fuel =>
    simp only [lzwEncLoop] at h
    by_cases hpos : pos < input.length
    · rw [if_pos hpos] at h
      cases hfl : findLongest d [] none (input.drop pos) with
      | none =>
        simp only [hfl] at h
        exact Except.noConfusion h
      | some out =>
        obtain ⟨code, elen⟩ := out
        simp only [hfl] at h
        by_cases hpos1 : pos + elen < input.length
        · rw [if_pos hpos1] at h
          by_cases hfull : d.length < 2 ^ 12 - 2
          · rw [if_pos hfull] at h
            cases hrec : lzwEncLoop noReset p input fuel (pos + elen)
                (if 2 ^ codeLen - 2 <
                    (d ++ [((input.drop pos).take elen ++ [input.getD (pos + elen) 0],
                      d.length + 2)]).length
                  then codeLen + 1 else codeLen)
                (d ++ [((input.drop pos).take elen ++ [input.getD (pos + elen) 0],
                  d.length + 2)]) with
            | error e =>
              rw [hrec] at h
              exact Except.noConfusion h
            | ok rest =>
              rw [hrec] at h
              rw [← Except.ok.inj h]
              rfl
          · rw [if_neg hfull] at h
            by_cases hnr : noReset
            · simp only [if_pos hnr] at h
              cases hrec : lzwEncLoop noReset p input fuel (pos + elen) codeLen d with
              | error e =>
                rw [hrec] at h
                exact Except.noConfusion h
              | ok rest =>
                rw [hrec] at h
                rw [← Except.ok.inj h]
                rfl
            · simp only [if_neg hnr] at h
              cases hrec : lzwEncLoop noReset p input fuel (pos + elen) (p + 1)
                  (encInitDict p) with
              | error e =>
                rw [hrec] at h
                exact Except.noConfusion h
              | ok rest =>
                rw [hrec] at h
                rw [← Except.ok.inj h]
                rfl
        · rw [if_neg hpos1] at h
          cases hrec : lzwEncLoop noReset p input fuel (pos + elen) codeLen d with
          | error e =>
            rw [hrec] at h
            exact Except.noConfusion h
          | ok rest =>
            rw [hrec] at h
            rw [← Except.ok.inj h]
            rfl
    · rw [if_neg hpos] at h
      rw [← Except.ok.inj h]
      rfl

/-- C4: for every `palBits ∈ [2,8]` and input of bytes `< 2^palBits`, the
encoder succeeds; its `(code, width)` stream has every width in
`[palBits+1, 12]`, every code below `2^width`, and widths non-decreasing
(growing by at most one per step) between clear codes, resetting to
`palBits+1` right after each clear (`List.Chain' (encAdj palBits)`).  The
increment timing: every code is emitted at the loop state's `codeLen`
(third conjunct); the maintained `codeLen` equals `encWidth palBits n` for a
dictionary of `n` keys (invariant of `encLoop_spec`, by which the first
conjunct is proved); and `encWidth` increments exactly when the newly added
entry makes `n + 1` keys satisfy `n + 1 > 2^codeLen - 2` — the source's own
growth test (second conjunct). -/
theorem c4_encoder_width_invariant (noReset : Bool) (p : Nat) (input : List Nat)
    (h2 : 2 ≤ p) (h8 : p ≤ 8) (hb : ∀ b ∈ input, b < 2 ^ p) :
    (∃ codes, lzw_encode noReset p input = .ok codes ∧
      codes.head? = some (2 ^ p, p + 1) ∧
      (∀ cw ∈ codes, p + 1 ≤ cw.2 ∧ cw.2 ≤ 12 ∧ cw.1 < 2 ^ cw.2) ∧
      List.Chain' (encAdj p) codes) ∧
    (∀ n, 2 ^ p ≤ n → n ≤ 4093 →
      encWidth p (n + 1) =
        if 2 ^ encWidth p n - 2 < n + 1 then encWidth p n + 1 else encWidth p n) ∧
    (∀ (fuel pos codeLen : Nat) (d : EDict) (codes : List (Nat × Nat)),
      lzwEncLoop noReset p input fuel pos codeLen d = .ok codes →
      codes.head?.map Prod.snd = some codeLen) := by
  refine ⟨?_, fun n hn1 hn2 => encWidth_step p n h2 h8 hn1 hn2,
    encLoop_head_width noReset p input⟩
  obtain ⟨codes0, hrun, hout⟩ := encLoop_spec noReset p input h2 h8 hb
    (input.length + 2) 0 (p + 1) (encInitDict p) (by omega) (encWF_init p)
    (by rw [encInitDict_length, encWidth_init p h2 h8])
    (by rw [encInitDict_length]
        have h256 : (2 : Nat) ^ p ≤ 2 ^ 8 := Nat.pow_le_pow_right (by norm_num) h8
        omega)
  obtain ⟨hhead, hall, hchain, -, -⟩ := hout
  obtain ⟨y, t, rfl⟩ : ∃ y t, codes0 = y :: t := by
    cases codes0 with
    | nil => simp at hhead
    | cons y t => exact ⟨y, t, rfl⟩
  have hy2 : y.2 = p + 1 := by
    simp only [List.head?_cons, Option.map_some'] at hhead
    exact Option.some_inj.mp hhead
  refine ⟨(2 ^ p, p + 1) :: y :: t, ?_, rfl, ?_, ?_⟩
  · unfold lzw_encode
    rw [hrun]
  · intro cw hcw
    rcases List.mem_cons.mp hcw with h1 | h1
    · rcases h1 with rfl
      have h2p := two_le_two_pow p (by omega)
      have hpp : (2 : Nat) ^ (p + 1) = 2 ^ p + 2 ^ p := by ring
      refine ⟨le_refl _, by omega, ?_⟩
      show 2 ^ p < 2 ^ (p + 1)
      omega
    · exact hall cw h1
  · exact List.chain'_cons.mpr ⟨⟨fun _ => hy2, fun hc => absurd rfl hc⟩, hchain⟩

/-- C10: for every `palBits ∈ [2,8]` and input of bytes `< 2^palBits`: the
greedy longest match always finds at least the one-byte root entry (the
lookup is defined and the matched entry is non-empty, so the input position
strictly increases each iteration), and the generator terminates
successfully, emitting the clear code first and the end code last and
nowhere else — for both values of `no_dict_reset`. -/
theorem c10_encoder_totality (noReset : Bool) (p : Nat) (input : List Nat)
    (h2 : 2 ≤ p) (h8 : p ≤ 8) (hb : ∀ b ∈ input, b < 2 ^ p) :
    (∀ (d : EDict) (rem : List Nat), EncWF p d → rem ≠ [] →
        (∀ b ∈ rem, b < 2 ^ p) →
        ∃ c l, findLongest d [] none rem = some (c, l) ∧ 1 ≤ l ∧ l ≤ rem.length) ∧
    ∃ codes, lzw_encode noReset p input = .ok codes ∧
      codes.head? = some (2 ^ p, p + 1) ∧
      (∃ w, codes.getLast? = some (2 ^ p + 1, w)) ∧
      ∀ cw ∈ codes.dropLast, cw.1 ≠ 2 ^ p + 1 := by
  constructor
  · intro d rem hwf hne hrb
    obtain ⟨b0, rest0, rfl⟩ := List.exists_cons_of_ne_nil hne
    obtain ⟨⟨c, l⟩, hout⟩ := findLongest_head_some d b0 rest0 b0
      (encLookup_root p d hwf b0 (hrb b0 (List.mem_cons_self _ _)))
    have hspec := findLongest_spec d (b0 :: rest0) [] none c l hout
      (fun _ _ h => by cases h)
    simp only [List.length_nil, List.nil_append, Nat.zero_add] at hspec
    refine ⟨c, l, hout, hspec.2.2.2.2 trivial, ?_⟩
    have := hspec.2.1
    simpa using this
  · obtain ⟨codes0, hrun, hout⟩ := encLoop_spec noReset p input h2 h8 hb
      (input.length + 2) 0 (p + 1) (encInitDict p) (by omega) (encWF_init p)
      (by rw [encInitDict_length, encWidth_init p h2 h8])
      (by rw [encInitDict_length]
          have h256 : (2 : Nat) ^ p ≤ 2 ^ 8 := Nat.pow_le_pow_right (by norm_num) h8
          omega)
    obtain ⟨hhead, -, -, hlast, hmid⟩ := hout
    obtain ⟨y, t, rfl⟩ : ∃ y t, codes0 = y :: t := by
      cases codes0 with
      | nil => simp at hhead
      | cons y t => exact ⟨y, t, rfl⟩
    refine ⟨(2 ^ p, p + 1) :: y :: t, ?_, rfl, ?_, ?_⟩
    · unfold lzw_encode
      rw [hrun]
    · obtain ⟨w', hw'⟩ := hlast
      exact ⟨w', by rw [List.getLast?_cons_cons]; exact hw'⟩
    · intro cw hcw
      rw [List.dropLast_cons₂] at hcw
      rcases List.mem_cons.mp hcw with h1 | h1
      · rw [h1]
        omega
      · exact hmid cw h1

/-! ### Arithmetic of the decoder code width -/

theorem decWidth_lb (p n : Nat) (hp : p ≤ 11) : p + 1 ≤ decWidth p n :=
  le_min (by omega) (le_max_left _ _)

theorem decWidth_ub (p n : Nat) : decWidth p n ≤ 12 :=
  min_le_left _ _

theorem decWidth_pow_gt (p n : Nat) (h : decWidth p n < 12) :
    n + 1 ≤ 2 ^ decWidth p n := by
  have hd : decWidth p n = min 12 (max (p + 1) (Nat.clog 2 (n + 1))) := rfl
  have hclog : Nat.clog 2 (n + 1) ≤ decWidth p n := by omega
  calc n + 1 ≤ 2 ^ Nat.clog 2 (n + 1) := Nat.le_pow_clog (by norm_num) _
  _ ≤ 2 ^ decWidth p n := Nat.pow_le_pow_right (by norm_num) hclog

theorem decWidth_init (p : Nat) (h2 : 2 ≤ p) (h11 : p ≤ 11) :
    decWidth p (2 ^ p + 2) = p + 1 := by
  have hclog : Nat.clog 2 (2 ^ p + 3) = p + 1 := by
    apply le_antisymm
    · rw [← Nat.le_pow_iff_clog_le (by norm_num)]
      have h1 : 4 ≤ 2 ^ p := by
        calc (4 : Nat) = 2 ^ 2 := by norm_num
        _ ≤ 2 ^ p := Nat.pow_le_pow_right (by norm_num) h2
      have h2' : (2 : Nat) ^ (p + 1) = 2 ^ p + 2 ^ p := by ring
      omega
    · have h1 : (2 : Nat) ^ p < 2 ^ p + 3 := by omega
      exact (Nat.pow_lt_iff_lt_clog (by norm_num)).mp h1
  unfold decWidth
  have harr : 2 ^ p + 2 + 1 = 2 ^ p + 3 := by omega
  rw [harr, hclog, max_self, min_eq_right (by omega)]

theorem decWidth_succ_eq (p n : Nat) :
    decWidth p (n + 1) = min 12 (max (p + 1) (Nat.clog 2 (n + 2))) := by
  unfold decWidth
  norm_num

theorem decWidth_step (p n : Nat) (h2 : 2 ≤ p) (h11 : p ≤ 11)
    (hn : 2 ^ p + 2 ≤ n) (hub : n ≤ 4095) :
    (if n + 1 = 2 ^ decWidth p n ∧ decWidth p n < 12
      then decWidth p n + 1 else decWidth p n) = decWidth p (n + 1) := by
  have hlb := decWidth_lb p n h11
  have hup := decWidth_ub p n
  by_cases hcond : n + 1 = 2 ^ decWidth p n ∧ decWidth p n < 12
  · obtain ⟨hc1, hc2⟩ := hcond
    have hclog : Nat.clog 2 (n + 2) = decWidth p n + 1 := by
      apply le_antisymm
      · rw [← Nat.le_pow_iff_clog_le (by norm_num)]
        have h3 : (2 : Nat) ^ (decWidth p n + 1) =
            2 ^ decWidth p n + 2 ^ decWidth p n := by ring
        have h4 : (1 : Nat) ≤ 2 ^ decWidth p n := Nat.one_le_two_pow
        omega
      · have h1 : (2 : Nat) ^ decWidth p n < n + 2 := by omega
        exact (Nat.pow_lt_iff_lt_clog (by norm_num)).mp h1
    rw [decWidth_succ_eq, hclog, if_pos ⟨hc1, hc2⟩]
    omega
  · rw [if_neg hcond, decWidth_succ_eq]
    have hd : decWidth p n = min 12 (max (p + 1) (Nat.clog 2 (n + 1))) := rfl
    have hmono : Nat.clog 2 (n + 1) ≤ Nat.clog 2 (n + 2) :=
      Nat.clog_mono_right 2 (by omega)
    by_cases h12 : decWidth p n < 12
    · have hple := decWidth_pow_gt p n h12
      have hne : n + 1 ≠ 2 ^ decWidth p n := by tauto
      have hclog_le : Nat.clog 2 (n + 2) ≤ decWidth p n := by
        rw [← Nat.le_pow_iff_clog_le (by norm_num)]
        omega
      omega
    · -- the width is already 12 and stays there
      have hclog_ge : 12 ≤ max (p + 1) (Nat.clog 2 (n + 2)) := by
        have : 12 ≤ max (p + 1) (Nat.clog 2 (n + 1)) := by omega
        omega
      omega

theorem decWidth_full (p : Nat) (h11 : p ≤ 11) : decWidth p 4096 = 12 := by
  have hclog : 12 < Nat.clog 2 4097 := by
    have h1 : (2 : Nat) ^ 12 < 4097 := by norm_num
    exact (Nat.pow_lt_iff_lt_clog (by norm_num)).mp h1
  unfold decWidth
  norm_num
  omega

/-! ### Decoder dictionary and chain-walk lemmas -/

theorem dictWF_init (p : Nat) :
    DictWF p ((List.range (2 ^ p + 2)).map (fun i => ((none : Option Nat), i))) := by
  constructor
  · intro i hi
    simp [List.get?_eq_getElem?, List.getElem?_map, List.getElem?_range hi]
  · intro i e he hge
    exfalso
    have hnone : ((List.range (2 ^ p + 2)).map
        (fun i => ((none : Option Nat), i))).get? i = none := by
      rw [List.get?_eq_getElem?]
      apply List.getElem?_eq_none
      simp
      omega
    rw [hnone] at he
    exact Option.noConfusion he

theorem dictWF_take (p : Nat) (dict : List DEntry) (h : DictWF p dict) :
    DictWF p (dict.take (2 ^ p + 2)) := by
  obtain ⟨hroot, hchain⟩ := h
  constructor
  · intro i hi
    rw [List.get?_eq_getElem?, List.getElem?_take, if_pos hi, ← List.get?_eq_getElem?]
    exact hroot i hi
  · intro i e he hge
    exfalso
    rw [List.get?_eq_getElem?, List.getElem?_take, if_neg (by omega)] at he
    exact Option.noConfusion he

theorem dictWF_append (p : Nat) (dict : List DEntry) (pc b : Nat)
    (h : DictWF p dict) (hlen : 2 ^ p + 2 ≤ dict.length)
    (hpc : pc < dict.length) (hpc1 : pc ≠ 2 ^ p) (hpc2 : pc ≠ 2 ^ p + 1)
    (hb : b < 2 ^ p) : DictWF p (dict ++ [(some pc, b)]) := by
  obtain ⟨hroot, hchain⟩ := h
  constructor
  · intro i hi
    rw [List.get?_eq_getElem?, List.getElem?_append_left (by omega),
      ← List.get?_eq_getElem?]
    exact hroot i hi
  · intro i e he hge
    rcases lt_trichotomy i dict.length with hlt | heq | hgt
    · rw [List.get?_eq_getElem?, List.getElem?_append_left hlt,
        ← List.get?_eq_getElem?] at he
      exact hchain i e he hge
    · subst heq
      have hsome : (dict ++ [(some pc, b)]).get? dict.length = some (some pc, b) := by
        simp
      rw [hsome] at he
      exact ⟨pc, b, (Option.some_inj.mp he).symm, hpc, hpc1, hpc2, hb⟩
    · exfalso
      have hnone : (dict ++ [(some pc, b)]).get? i = none := by
        rw [List.get?_eq_getElem?]
        apply List.getElem?_eq_none
        simp
        omega
      rw [hnone] at he
      exact Option.noConfusion he

theorem list_get?_of_lt {α : Type} (l : List α) (i : Nat) (h : i < l.length) :
    ∃ e, l.get? i = some e :=
  ⟨l.get ⟨i, h⟩, List.get?_eq_get h⟩

theorem walkFirstByte_ok (p : Nat) (dict : List DEntry) (h : DictWF p dict) :
    ∀ (fuel c : Nat), c < dict.length → c ≠ 2 ^ p → c ≠ 2 ^ p + 1 →
      c + 1 ≤ fuel → ∃ b, walkFirstByte dict fuel c = .ok b ∧ b < 2 ^ p := by
  obtain ⟨hroot, hchain⟩ := h
  intro fuel
  induction fuel with
  | zero =>
    intro c _ _ _ hf
    omega
  | succ fuel ih =>
    intro c hc hc1 hc2 hfuel
    by_cases hcsmall : c < 2 ^ p + 2
    · refine ⟨c, ?_, by omega⟩
      simp only [walkFirstByte, hroot c hcsmall]
    · obtain ⟨e, hge⟩ := list_get?_of_lt dict c hc
      obtain ⟨q, b, rfl, hq, hq1, hq2, hb⟩ := hchain c e hge (by omega)
      obtain ⟨b2, hwalk, hb2⟩ := ih q (by omega) hq1 hq2 (by omega)
      refine ⟨b2, ?_, hb2⟩
      simp only [walkFirstByte, hge]
      exact hwalk

theorem walkEntry_badCode (dict : List DEntry) (fuel c : Nat) (acc : List Nat)
    (hc : dict.length ≤ c) : walkEntry dict (fuel + 1) c acc = .error .badCode := by
  have hnone : dict.get? c = none := by
    rw [List.get?_eq_getElem?]
    exact List.getElem?_eq_none hc
  simp only [walkEntry, hnone]

theorem walkEntry_ok_bytes (p : Nat) (dict : List DEntry) (h : DictWF p dict) :
    ∀ (fuel c : Nat) (acc entry : List Nat), c < dict.length → c ≠ 2 ^ p →
      c ≠ 2 ^ p + 1 → walkEntry dict fuel c acc = .ok entry →
      ∃ pre, entry = pre ++ acc ∧ pre ≠ [] ∧ ∀ x ∈ pre, x < 2 ^ p := by
  obtain ⟨hroot, hchain⟩ := h
  intro fuel
  induction fuel with
  | zero =>
    intro c acc entry _ _ _ hw
    exact Except.noConfusion hw
  | succ fuel ih =>
    intro c acc entry hc hc1 hc2 hw
    by_cases hcsmall : c < 2 ^ p + 2
    · simp only [walkEntry, hroot c hcsmall] at hw
      split at hw
      · exact Except.noConfusion hw
      · refine ⟨[c], by simpa using (Except.ok.inj hw).symm, by simp, ?_⟩
        intro x hx
        rw [List.mem_singleton.mp hx]
        omega
    · obtain ⟨e, hge⟩ := list_get?_of_lt dict c hc
      obtain ⟨q, b, rfl, hq, hq1, hq2, hb⟩ := hchain c e hge (by omega)
      simp only [walkEntry, hge] at hw
      split at hw
      · exact Except.noConfusion hw
      · obtain ⟨pre1, hpre1, hne1, hlt1⟩ := ih q (b :: acc) entry (by omega) hq1 hq2 hw
        refine ⟨pre1 ++ [b], ?_, by simp, ?_⟩
        · rw [hpre1, List.append_assoc, List.singleton_append]
        · intro x hx
          rcases List.mem_append.mp hx with h1 | h1
          · exact hlt1 x h1
          · rw [List.mem_singleton.mp h1]
            exact hb

theorem walkEntry_ok_of_valid (p : Nat) (dict : List DEntry) (h : DictWF p dict)
    (h8 : p ≤ 8) :
    ∀ (fuel c : Nat) (acc : List Nat), c < dict.length → c ≠ 2 ^ p →
      c ≠ 2 ^ p + 1 → c + 1 ≤ fuel →
      ∃ entry, walkEntry dict fuel c acc = .ok entry := by
  obtain ⟨hroot, hchain⟩ := h
  have hpow : (2 : Nat) ^ p ≤ 256 := by
    calc (2 : Nat) ^ p ≤ 2 ^ 8 := Nat.pow_le_pow_right (by norm_num) h8
    _ = 256 := by norm_num
  intro fuel
  induction fuel with
  | zero =>
    intro c _ _ _ _ hf
    omega
  | succ fuel ih =>
    intro c acc hc hc1 hc2 hfuel
    by_cases hcsmall : c < 2 ^ p + 2
    · refine ⟨c :: acc, ?_⟩
      simp only [walkEntry, hroot c hcsmall]
      rw [if_neg (by omega)]
    · obtain ⟨e, hge⟩ := list_get?_of_lt dict c hc
      obtain ⟨q, b, rfl, hq, hq1, hq2, hb⟩ := hchain c e hge (by omega)
      obtain ⟨entry, hwalk⟩ := ih q (b :: acc) (by omega) hq1 hq2 (by omega)
      refine ⟨entry, ?_⟩
      simp only [walkEntry, hge]
      rw [if_neg (by omega)]
      exact hwalk

theorem walkEntry_no_fuelOut (p : Nat) (dict : List DEntry) (h : DictWF p dict) :
    ∀ (fuel c : Nat) (acc : List Nat), c + 1 ≤ fuel →
      walkEntry dict fuel c acc ≠ .error .fuelOut := by
  obtain ⟨hroot, hchain⟩ := h
  intro fuel
  induction fuel with
  | zero =>
    intro c _ hf
    omega
  | succ fuel ih =>
    intro c acc hfuel
    by_cases hc : c < dict.length
    · by_cases hcsmall : c < 2 ^ p + 2
      · simp only [walkEntry, hroot c hcsmall]
        split <;> simp
      · obtain ⟨e, hge⟩ := list_get?_of_lt dict c hc
        obtain ⟨q, b, rfl, hq, hq1, hq2, hb⟩ := hchain c e hge (by omega)
        simp only [walkEntry, hge]
        split
        · simp
        · exact ih q (b :: acc) (by omega)
    · rw [walkEntry_badCode dict fuel c acc (by omega)]
      simp

/-! ### Decoder step lemmas -/

theorem decInv_init (p : Nat) (h2 : 2 ≤ p) (h11 : p ≤ 11) :
    DecInv p (initDecSt p) := by
  refine ⟨by simp [initDecSt], by simp [initDecSt], ?_, ?_, ?_, ?_, by simp [initDecSt]⟩
  · simp only [initDecSt, List.length_map, List.length_range]
    have hpow : (2 : Nat) ^ p ≤ 2 ^ 11 := Nat.pow_le_pow_right (by norm_num) h11
    norm_num at hpow ⊢
    omega
  · exact dictWF_init p
  · intro q hq
    exact Option.noConfusion hq
  · show p + 1 = decWidth p (2 ^ p + 2)
    exact (decWidth_init p h2 h11).symm

theorem decInv_step (p : Nat) (h2 : 2 ≤ p) (h11 : p ≤ 11) (s : DecSt) (code : Nat)
    (hinv : DecInv p s) (s1 : DecSt)
    (hstep : lzwProcessCode p s code = .next s1) : DecInv p s1 := by
  obtain ⟨hlen, hmin, hmax, hwf, hprev, hcode, hout⟩ := hinv
  by_cases hc1 : code = 2 ^ p
  · -- clear code: reset
    simp only [lzwProcessCode, if_pos hc1] at hstep
    injection hstep with hs1
    subst hs1
    refine ⟨?_, ?_, ?_, dictWF_take p s.dict hwf, ?_, ?_, hout⟩
    · show 2 ^ p + 2 = (s.dict.take (2 ^ p + 2)).length
      rw [List.length_take]
      omega
    · show 2 ^ p + 2 ≤ (s.dict.take (2 ^ p + 2)).length
      rw [List.length_take]
      omega
    · show (s.dict.take (2 ^ p + 2)).length ≤ 4096
      rw [List.length_take]
      omega
    · intro q hq
      exact Option.noConfusion hq
    · show p + 1 = decWidth p (2 ^ p + 2)
      exact (decWidth_init p h2 h11).symm
  · by_cases hc2 : code = 2 ^ p + 1
    · -- end code: `.done`, not `.next`
      simp only [lzwProcessCode, if_neg hc1, if_pos hc2] at hstep
      exact StepRes.noConfusion hstep
    · -- data code
      have hgrow : (if s.dictLen = 2 ^ s.codeLen ∧ s.codeLen < 12
          then s.codeLen + 1 else s.codeLen) = decWidth p s.dictLen := by
        rw [if_neg, hcode]
        rintro ⟨he, h12⟩
        have hge := decWidth_pow_gt p s.dictLen (by omega)
        rw [← hcode] at hge
        omega
      cases hpc : s.prevCode with
      | none =>
        simp only [lzwProcessCode, if_neg hc1, if_neg hc2, hpc, Option.isSome_none,
          Bool.false_eq_true, false_and, if_false] at hstep
        cases hwalk : walkEntry s.dict (s.dict.length + 1) code [] with
        | error e =>
          rw [hwalk] at hstep
          exact StepRes.noConfusion hstep
        | ok entry =>
          rw [hwalk] at hstep
          injection hstep with hs1
          subst hs1
          have hcodelt : code < s.dict.length := by
            by_contra hge
            rw [walkEntry_badCode s.dict s.dict.length code [] (by omega)] at hwalk
            exact Except.noConfusion hwalk
          obtain ⟨pre, hpre, -, hprelt⟩ :=
            walkEntry_ok_bytes p s.dict hwf _ code [] entry hcodelt hc1 hc2 hwalk
          refine ⟨hlen, hmin, hmax, hwf, ?_, ?_, ?_⟩
          · intro q hq
            show _ ∧ _
            by_cases hcond : code < s.dictLen ∧ s.dictLen < 2 ^ 12
            · rw [show ((if code < s.dictLen ∧ s.dictLen < 2 ^ 12
                  then some code else none) : Option Nat) = some code
                  from if_pos hcond] at hq
              rw [← Option.some_inj.mp hq]
              refine ⟨?_, hc1, hc2, ?_⟩
              · show code < s.dict.length
                omega
              · show s.dict.length < 4096
                omega
            · rw [if_neg hcond] at hq
              exact Option.noConfusion hq
          · exact hgrow
          · intro x hx
            rcases List.mem_append.mp hx with h1 | h1
            · exact hout x h1
            · rw [hpre, List.append_nil] at h1
              exact hprelt x h1
      | some pc =>
        obtain ⟨hpclt, hpc1, hpc2, hlt4096⟩ := hprev pc hpc
        have hsfxv : (if code < s.dict.length then code else pc) < s.dict.length ∧
            (if code < s.dict.length then code else pc) ≠ 2 ^ p ∧
            (if code < s.dict.length then code else pc) ≠ 2 ^ p + 1 := by
          split
          · exact ⟨by omega, hc1, hc2⟩
          · exact ⟨hpclt, hpc1, hpc2⟩
        obtain ⟨b, hwb, hblt⟩ := walkFirstByte_ok p s.dict hwf (s.dict.length + 1)
          (if code < s.dict.length then code else pc) hsfxv.1 hsfxv.2.1 hsfxv.2.2
          (by omega)
        simp only [lzwProcessCode, if_neg hc1, if_neg hc2, hpc, hwb,
          Option.isSome_some, true_and, if_true] at hstep
        cases hwalk : walkEntry (s.dict ++ [(some pc, b)])
            ((s.dict ++ [(some pc, b)]).length + 1) code [] with
        | error e =>
          simp only [hwalk] at hstep
          exact StepRes.noConfusion hstep
        | ok entry =>
          have hcodelt : code < (s.dict ++ [(some pc, b)]).length := by
            by_contra hge
            rw [walkEntry_badCode _ _ code [] (by omega)] at hwalk
            exact Except.noConfusion hwalk
          rw [List.length_append, List.length_singleton] at hcodelt
          simp only [hwalk] at hstep
          rw [if_neg (show ¬ s.dictLen < code by omega)] at hstep
          injection hstep with hs1
          subst hs1
          have hwf1 : DictWF p (s.dict ++ [(some pc, b)]) :=
            dictWF_append p s.dict pc b hwf hmin hpclt hpc1 hpc2 hblt
          obtain ⟨pre, hpre, -, hprelt⟩ :=
            walkEntry_ok_bytes p _ hwf1 _ code [] entry
              (by rw [List.length_append, List.length_singleton]; omega)
              hc1 hc2 hwalk
          refine ⟨?_, ?_, ?_, hwf1, ?_, ?_, ?_⟩
          · show s.dictLen + 1 = (s.dict ++ [(some pc, b)]).length
            rw [List.length_append, List.length_singleton]
            omega
          · show 2 ^ p + 2 ≤ (s.dict ++ [(some pc, b)]).length
            rw [List.length_append, List.length_singleton]
            omega
          · show (s.dict ++ [(some pc, b)]).length ≤ 4096
            rw [List.length_append, List.length_singleton]
            omega
          · intro q hq
            show _ ∧ _
            by_cases hcond : code < s.dictLen + 1 ∧ s.dictLen + 1 < 2 ^ 12
            · rw [show ((if code < s.dictLen + 1 ∧ s.dictLen + 1 < 2 ^ 12
                  then some code else none) : Option Nat) = some code
                  from if_pos hcond] at hq
              rw [← Option.some_inj.mp hq]
              refine ⟨?_, hc1, hc2, ?_⟩
              · rw [List.length_append, List.length_singleton]
                omega
              · rw [List.length_append, List.length_singleton]
                omega
            · rw [if_neg hcond] at hq
              exact Option.noConfusion hq
          · show (if s.dictLen + 1 = 2 ^ s.codeLen ∧ s.codeLen < 12
                then s.codeLen + 1 else s.codeLen) = decWidth p (s.dictLen + 1)
            rw [hcode]
            exact decWidth_step p s.dictLen h2 h11 (by omega) (by omega)
          · intro x hx
            rcases List.mem_append.mp hx with h1 | h1
            · exact hout x h1
            · rw [hpre, List.append_nil] at h1
              exact hprelt x h1

theorem processCode_done_out (p : Nat) (s : DecSt) (code : Nat) (o : List Nat)
    (h : lzwProcessCode p s code = .done o) : o = s.out ∧ code = 2 ^ p + 1 := by
  by_cases hc1 : code = 2 ^ p
  · simp only [lzwProcessCode, if_pos hc1] at h
    exact StepRes.noConfusion h
  · by_cases hc2 : code = 2 ^ p + 1
    · simp only [lzwProcessCode, if_neg hc1, if_pos hc2] at h
      exact ⟨(StepRes.done.inj h).symm, hc2⟩
    · simp only [lzwProcessCode, if_neg hc1, if_neg hc2] at h
      cases hpc : s.prevCode with
      | none =>
        simp only [hpc] at h
        cases hw : walkEntry s.dict (s.dict.length + 1) code [] with
        | error e =>
          simp only [hw] at h
          exact StepRes.noConfusion h
        | ok entry =>
          simp only [hw] at h
          split at h <;> exact StepRes.noConfusion h
      | some pc =>
        simp only [hpc] at h
        cases hwb : walkFirstByte s.dict (s.dict.length + 1)
            (if code < s.dict.length then code else pc) with
        | error e =>
          simp only [hwb] at h
          exact StepRes.noConfusion h
        | ok b =>
          simp only [hwb] at h
          cases hw : walkEntry (s.dict ++ [(some pc, b)])
              ((s.dict ++ [(some pc, b)]).length + 1) code [] with
          | error e =>
            simp only [hw] at h
            exact StepRes.noConfusion h
          | ok entry =>
            simp only [hw] at h
            split at h <;> exact StepRes.noConfusion h

theorem processCode_next_fields (p : Nat) (s : DecSt) (code : Nat) (s1 : DecSt)
    (hc1 : code ≠ 2 ^ p) (hc2 : code ≠ 2 ^ p + 1)
    (h : lzwProcessCode p s code = .next s1) :
    s1.dictLen = (if s.prevCode.isSome then s.dictLen + 1 else s.dictLen) ∧
    s1.codeLen = (if (if s.prevCode.isSome then s.dictLen + 1 else s.dictLen)
        = 2 ^ s.codeLen ∧ s.codeLen < 12
      then s.codeLen + 1 else s.codeLen) ∧
    (s1.out = s.out ∨ ∃ dict1 entry, walkEntry dict1 (dict1.length + 1) code []
      = .ok entry ∧ s1.out = s.out ++ entry) := by
  simp only [lzwProcessCode, if_neg hc1, if_neg hc2] at h
  cases hpc : s.prevCode with
  | none =>
    simp only [hpc] at h
    cases hw : walkEntry s.dict (s.dict.length + 1) code [] with
    | error e =>
      simp only [hw] at h
      exact StepRes.noConfusion h
    | ok entry =>
      simp only [hw, Option.isSome_none, Bool.false_eq_true, false_and, if_false] at h
      injection h with hs1
      subst hs1
      simp only [hpc, Option.isSome_none, Bool.false_eq_true, if_false]
      exact ⟨trivial, trivial, Or.inr ⟨s.dict, entry, hw, rfl⟩⟩
  | some pc =>
    simp only [hpc] at h
    cases hwb : walkFirstByte s.dict (s.dict.length + 1)
        (if code < s.dict.length then code else pc) with
    | error e =>
      simp only [hwb] at h
      exact StepRes.noConfusion h
    | ok b =>
      simp only [hwb] at h
      cases hw : walkEntry (s.dict ++ [(some pc, b)])
          ((s.dict ++ [(some pc, b)]).length + 1) code [] with
      | error e =>
        simp only [hw] at h
        exact StepRes.noConfusion h
      | ok entry =>
        simp only [hw, Option.isSome_some, true_and, if_true] at h
        split at h
        · exact StepRes.noConfusion h
        · injection h with hs1
          subst hs1
          simp only [hpc, Option.isSome_some, if_true]
          exact ⟨trivial, trivial, Or.inr ⟨s.dict ++ [(some pc, b)], entry, hw, rfl⟩⟩

theorem decInv_update_pos (p : Nat) (s : DecSt) (a b : Nat) (h : DecInv p s) :
    DecInv p { s with pos := a, bitPos := b } := h

theorem lzwRun_out_lt (p : Nat) (h2 : 2 ≤ p) (h11 : p ≤ 11) (data : List Nat) :
    ∀ (fuel : Nat) (s : DecSt) (out : List Nat), DecInv p s →
      lzwRun data p fuel s = .ok out → ∀ x ∈ out, x < 2 ^ p := by
  intro fuel
  induction fuel with
  | zero =>
    intro s out _ h
    exact Except.noConfusion h
  | succ fuel ih =>
    intro s out hinv hrun
    simp only [lzwRun] at hrun
    cases hstep : lzwStep data p s with
    | fail e =>
      rw [hstep] at hrun
      exact Except.noConfusion hrun
    | done o =>
      rw [hstep] at hrun
      have ho : o = out := Except.ok.inj hrun
      unfold lzwStep at hstep
      cases hrc : readCode data s.pos s.bitPos s.codeLen with
      | error e =>
        simp only [hrc] at hstep
        exact StepRes.noConfusion hstep
      | ok code =>
        simp only [hrc] at hstep
        have hdone := (processCode_done_out p _ code o hstep).1
        intro x hx
        apply hinv.2.2.2.2.2.2 x
        rw [← ho, hdone] at hx
        exact hx
    | next s1 =>
      rw [hstep] at hrun
      refine ih s1 out ?_ hrun
      unfold lzwStep at hstep
      cases hrc : readCode data s.pos s.bitPos s.codeLen with
      | error e =>
        simp only [hrc] at hstep
        exact StepRes.noConfusion hstep
      | ok code =>
        simp only [hrc] at hstep
        exact decInv_step p h2 h11 _ code
          (decInv_update_pos p s _ _ hinv) s1 hstep

/-- C8: for every `palBits ∈ [2,11]`, every successfully decoded output
byte is below `2^palBits` (the byte of a root entry with index below
`2^palBits`), and this is an invariant of the whole loop: `DecInv` — whose
dictionary well-formedness `DictWF` states that every chain entry stores a
byte `< 2^palBits` and a non-reserved prefix, so the reserved clear/end
slots are never reachable — holds initially and is preserved by every
processed code. -/
theorem c8_output_bytes_bound (p : Nat) (h2 : 2 ≤ p) (h11 : p ≤ 11) :
    (∀ (data out : List Nat), lzw_decode data p = .ok out →
      ∀ x ∈ out, x < 2 ^ p) ∧
    (∀ (s : DecSt) (code : Nat) (s1 : DecSt), DecInv p s →
      lzwProcessCode p s code = .next s1 → DecInv p s1) ∧
    DecInv p (initDecSt p) := by
  refine ⟨?_, fun s code s1 hinv h => decInv_step p h2 h11 s code hinv s1 h,
    decInv_init p h2 h11⟩
  intro data out h
  exact lzwRun_out_lt p h2 h11 data _ _ out (decInv_init p h2 h11) h

/-- Witness for `c8_output_bytes_bound`: the decoded KwKwK stream holds only
indices below `2^2`. -/
theorem c8_output_bytes_bound_witness : (2 : Nat) < 2 ^ 2 :=
  (c8_output_bytes_bound 2 (by decide) (by decide)).1 [140, 45, 5]
    [1, 1, 1, 1, 1, 2] rfl 2 (by decide)

/-- C9: in every reachable decoder state the dictionary has at most 4096
entries, every chain entry at index `i ≥ 2^palBits + 2` has a prefix
strictly below `i`, root entries carry the sentinel prefix, and both
prefix-chain walks (first-byte search, `walkFirstByte`, and entry emission,
`walkEntry`) terminate within the `dict.length + 1 ≤ 4097` fuel the decoder
hands them — the first-byte walk returns a byte and the emission walk never
runs out of fuel. -/
theorem c9_chain_walk_termination (p : Nat) (h2 : 2 ≤ p) (h11 : p ≤ 11)
    (s : DecSt) (hinv : DecInv p s) :
    s.dict.length ≤ 4096 ∧
    (∀ i e, s.dict.get? i = some e → 2 ^ p + 2 ≤ i →
      ∃ q b, e = (some q, b) ∧ q < i) ∧
    (∀ i e, s.dict.get? i = some e → i < 2 ^ p + 2 → e.1 = none) ∧
    (∀ c, c < s.dict.length → c ≠ 2 ^ p → c ≠ 2 ^ p + 1 →
      (∃ b, walkFirstByte s.dict (s.dict.length + 1) c = .ok b) ∧
      ∀ acc, walkEntry s.dict (s.dict.length + 1) c acc ≠ .error .fuelOut) := by
  obtain ⟨hlen, hmin, hmax, hwf, hprev, hcode, hout⟩ := hinv
  refine ⟨hmax, ?_, ?_, ?_⟩
  · intro i e he hge
    obtain ⟨q, b, he2, hq, -, -, -⟩ := hwf.2 i e he hge
    exact ⟨q, b, he2, hq⟩
  · intro i e he hlt
    rw [hwf.1 i hlt] at he
    rw [← Option.some_inj.mp he]
  · intro c hc hc1 hc2
    constructor
    · obtain ⟨b, hb, -⟩ := walkFirstByte_ok p s.dict hwf (s.dict.length + 1) c
        hc hc1 hc2 (by omega)
      exact ⟨b, hb⟩
    · intro acc
      exact walkEntry_no_fuelOut p s.dict hwf (s.dict.length + 1) c acc (by omega)

/-- Witness for `c9_chain_walk_termination` at the initial state for
`palBits = 2`. -/
theorem c9_chain_walk_termination_witness : (initDecSt 2).dict.length ≤ 4096 :=
  (c9_chain_walk_termination 2 (by decide) (by decide) (initDecSt 2)
    (decInv_init 2 (by decide) (by decide))).1

/-- C3: a data code `code` (neither clear nor end) makes the decoder raise
the BadCode error exactly when it is neither in the dictionary nor the
KwKwK extension: with a pending previous code, exactly when
`code > dictLen`; with no pending previous code (at the start or right
after a clear), exactly when `code ≥ dictLen`; and in the complementary
cases the code is accepted (the step produces a successor state).  The
failing walk is the entry-emission lookup for a no-previous code and the
reader's simulation check is subsumed by it, so both failures carry the
same "invalid LZW code" error. -/
theorem c3_badcode_iff (p : Nat) (h2 : 2 ≤ p) (h8 : p ≤ 8)
    (s : DecSt) (code : Nat) (hinv : DecInv p s)
    (hc1 : code ≠ 2 ^ p) (hc2 : code ≠ 2 ^ p + 1) :
    (lzwProcessCode p s code = .fail .badCode ↔
      ((s.prevCode ≠ none ∧ s.dictLen < code) ∨
        (s.prevCode = none ∧ s.dictLen ≤ code))) ∧
    (((s.prevCode ≠ none → code ≤ s.dictLen) ∧
        (s.prevCode = none → code < s.dictLen)) →
      ∃ s1, lzwProcessCode p s code = .next s1) := by
  obtain ⟨hlen, hmin, hmax, hwf, hprev, hcode, hout⟩ := hinv
  have haccept : ((s.prevCode ≠ none → code ≤ s.dictLen) ∧
      (s.prevCode = none → code < s.dictLen)) →
      ∃ s1, lzwProcessCode p s code = .next s1 := by
    rintro ⟨hsome, hnone⟩
    cases hpc : s.prevCode with
    | none =>
      have hlt : code < s.dict.length := by
        have := hnone hpc
        omega
      obtain ⟨entry, hwalk⟩ := walkEntry_ok_of_valid p s.dict hwf h8
        (s.dict.length + 1) code [] hlt hc1 hc2 (by omega)
      simp only [lzwProcessCode, if_neg hc1, if_neg hc2, hpc, hwalk,
        Option.isSome_none, Bool.false_eq_true, false_and, if_false]
      exact ⟨_, rfl⟩
    | some pc =>
      obtain ⟨hpclt, hpc1, hpc2, hlt4096⟩ := hprev pc hpc
      have hle : code ≤ s.dictLen := hsome (by rw [hpc]; exact Option.noConfusion)
      have hsfxv : (if code < s.dict.length then code else pc) < s.dict.length ∧
          (if code < s.dict.length then code else pc) ≠ 2 ^ p ∧
          (if code < s.dict.length then code else pc) ≠ 2 ^ p + 1 := by
        split
        · exact ⟨by omega, hc1, hc2⟩
        · exact ⟨hpclt, hpc1, hpc2⟩
      obtain ⟨b, hwb, hblt⟩ := walkFirstByte_ok p s.dict hwf (s.dict.length + 1)
        (if code < s.dict.length then code else pc) hsfxv.1 hsfxv.2.1 hsfxv.2.2
        (by omega)
      have hwf1 : DictWF p (s.dict ++ [(some pc, b)]) :=
        dictWF_append p s.dict pc b hwf hmin hpclt hpc1 hpc2 hblt
      obtain ⟨entry, hwalk⟩ := walkEntry_ok_of_valid p _ hwf1 h8
        ((s.dict ++ [(some pc, b)]).length + 1) code []
        (by rw [List.length_append, List.length_singleton]; omega) hc1 hc2
        (by rw [List.length_append, List.length_singleton]; omega)
      simp only [lzwProcessCode, if_neg hc1, if_neg hc2, hpc, hwb, hwalk,
        Option.isSome_some, true_and, if_true,
        if_neg (show ¬ s.dictLen < code by omega)]
      exact ⟨_, rfl⟩
  refine ⟨⟨?_, ?_⟩, haccept⟩
  · intro hfail
    by_cases hcond : (s.prevCode ≠ none ∧ s.dictLen < code) ∨
        (s.prevCode = none ∧ s.dictLen ≤ code)
    · exact hcond
    · exfalso
      push_neg at hcond
      obtain ⟨s1, hnext⟩ := haccept (by
        constructor
        · intro hne
          have := hcond.1 hne
          omega
        · intro hn
          have := hcond.2 hn
          omega)
      rw [hnext] at hfail
      exact StepRes.noConfusion hfail
  · intro hcond
    rcases hcond with ⟨hne, hlt⟩ | ⟨hn, hge⟩
    · -- pending previous code and code > dictLen: the reader path is
      -- pre-empted by the emission walk on the appended dictionary,
      -- which raises the same "invalid LZW code" error
      cases hpc : s.prevCode with
      | none => exact absurd hpc hne
      | some pc =>
        obtain ⟨hpclt, hpc1, hpc2, hlt4096⟩ := hprev pc hpc
        have hsfx_eq : (if code < s.dict.length then code else pc) = pc := by
          rw [if_neg (by omega)]
        obtain ⟨b, hwb, hblt⟩ := walkFirstByte_ok p s.dict hwf
          (s.dict.length + 1) pc hpclt hpc1 hpc2 (by omega)
        have hbad : walkEntry (s.dict ++ [(some pc, b)])
            ((s.dict ++ [(some pc, b)]).length + 1) code [] =
            .error .badCode := by
          apply walkEntry_badCode
          rw [List.length_append, List.length_singleton]
          omega
        simp only [lzwProcessCode, if_neg hc1, if_neg hc2, hpc, hsfx_eq, hwb,
          hbad]
    · cases hpc : s.prevCode with
      | some q =>
        rw [hn] at hpc
        exact Option.noConfusion hpc
      | none =>
        have hbad : walkEntry s.dict (s.dict.length + 1) code [] =
            .error .badCode := by
          apply walkEntry_badCode
          omega
        simp only [lzwProcessCode, if_neg hc1, if_neg hc2, hpc, hbad]

/-- Witness for `c3_badcode_iff` at the initial state for `palBits = 2`
with data code 1. -/
theorem c3_badcode_iff_witness :
    (lzwProcessCode 2 (initDecSt 2) 1 = .fail .badCode ↔
      (((initDecSt 2).prevCode ≠ none ∧ (initDecSt 2).dictLen < 1) ∨
        ((initDecSt 2).prevCode = none ∧ (initDecSt 2).dictLen ≤ 1))) ∧
    ((((initDecSt 2).prevCode ≠ none → 1 ≤ (initDecSt 2).dictLen) ∧
        ((initDecSt 2).prevCode = none → 1 < (initDecSt 2).dictLen)) →
      ∃ s1, lzwProcessCode 2 (initDecSt 2) 1 = .next s1) :=
  c3_badcode_iff 2 (by decide) (by decide) (initDecSt 2) 1
    (decInv_init 2 (by decide) (by decide)) (by decide) (by decide)

/-- C5: decoder code-length growth timing.  After any accepted data code
the new width is `codeLen + 1` exactly when the post-append dictionary
length (`s1.dictLen`, which is `dictLen + 1` when a previous code was
pending and `dictLen` otherwise) equals `2^codeLen` and `codeLen < 12`
(first conjunct); once the dictionary is at its maximum 4096 the width is
and stays 12 and the dictionary no longer grows (second conjunct); and a
clear code is accepted in every state — in particular at width 12 — and
resets the width to `palBits + 1` and the dictionary length to
`2^palBits + 2` (third conjunct). -/
theorem c5_decoder_growth_timing (p : Nat) (h2 : 2 ≤ p) (h11 : p ≤ 11) :
    (∀ (s : DecSt) (code : Nat) (s1 : DecSt),
      code ≠ 2 ^ p → code ≠ 2 ^ p + 1 →
      lzwProcessCode p s code = .next s1 →
      s1.dictLen = (if s.prevCode.isSome then s.dictLen + 1 else s.dictLen) ∧
      s1.codeLen = (if s1.dictLen = 2 ^ s.codeLen ∧ s.codeLen < 12
        then s.codeLen + 1 else s.codeLen)) ∧
    (∀ (s : DecSt) (code : Nat) (s1 : DecSt), DecInv p s → s.dictLen = 4096 →
      code ≠ 2 ^ p → code ≠ 2 ^ p + 1 →
      lzwProcessCode p s code = .next s1 →
      s.codeLen = 12 ∧ s1.codeLen = 12 ∧ s1.dictLen = 4096) ∧
    (∀ s : DecSt, ∃ s1, lzwProcessCode p s (2 ^ p) = .next s1 ∧
      s1.codeLen = p + 1 ∧ s1.dictLen = 2 ^ p + 2) := by
  refine ⟨?_, ?_, ?_⟩
  · intro s code s1 hc1 hc2 hnext
    obtain ⟨hd, hc, -⟩ := processCode_next_fields p s code s1 hc1 hc2 hnext
    rw [← hd] at hc
    exact ⟨hd, hc⟩
  · intro s code s1 hinv hfull hc1 hc2 hnext
    obtain ⟨hlen, hmin, hmax, hwf, hprev, hcode, hout⟩ := hinv
    have hw12 : s.codeLen = 12 := by
      rw [hcode, hfull]
      exact decWidth_full p h11
    have hpcn : s.prevCode = none := by
      cases hpc : s.prevCode with
      | none => rfl
      | some q =>
        obtain ⟨-, -, -, hlt⟩ := hprev q hpc
        omega
    obtain ⟨hd, hc, -⟩ := processCode_next_fields p s code s1 hc1 hc2 hnext
    rw [hpcn] at hd hc
    simp only [Option.isSome_none, Bool.false_eq_true, if_false] at hd hc
    refine ⟨hw12, ?_, by omega⟩
    rw [hc, hfull, hw12]
    norm_num
  · intro s
    have hred : lzwProcessCode p s (2 ^ p) = .next { s with codeLen := p + 1, dictLen := 2 ^ p + 2, prevCode := none, dict := s.dict.take (2 ^ p + 2) } := by
      simp only [lzwProcessCode, eq_self_iff_true, if_true]
    exact ⟨_, hred, rfl, rfl⟩

/-- Witness for `c5_decoder_growth_timing` at the initial state for
`palBits = 2`: a clear code resets width and dictionary length. -/
theorem c5_decoder_growth_timing_witness :
    ∃ s1, lzwProcessCode 2 (initDecSt 2) (2 ^ 2) = .next s1 ∧
      s1.codeLen = 2 + 1 ∧ s1.dictLen = 2 ^ 2 + 2 :=
  (c5_decoder_growth_timing 2 (by decide) (by decide)).2.2 (initDecSt 2)

/-! ### Error-shape lemmas: which error kinds each component can raise -/

theorem readBytes_err (data : List Nat) (pos n : Nat) (e : Err)
    (h : readBytes data pos n = .error e) : e = .truncated := by
  unfold readBytes at h
  split at h
  · exact Except.noConfusion h
  · exact (Except.error.inj h).symm

theorem readSubblocksLoop_err (data : List Nat) :
    ∀ (fuel pos sb : Nat) (e : Err),
      readSubblocksLoop data fuel pos sb = .error e →
      e = .truncated ∨ e = .fuelOut := by
  intro fuel
  induction fuel with
  | zero =>
    intro pos sb e h
    simp only [readSubblocksLoop] at h
    exact Or.inr (Except.error.inj h).symm
  | succ fuel ih =>
    intro pos sb e h
    simp only [readSubblocksLoop] at h
    split at h
    · exact Except.noConfusion h
    · cases hrb : readBytes data pos (sb + 1) with
      | error e2 =>
        rw [hrb] at h
        rw [readBytes_err data pos (sb + 1) e2 hrb] at h
        exact Or.inl (Except.error.inj h).symm
      | ok r =>
        obtain ⟨chunk, pos1⟩ := r
        simp only [hrb] at h
        cases hrec : readSubblocksLoop data fuel pos1 (chunk.getLastD 0) with
        | error e2 =>
          rw [hrec] at h
          have := ih pos1 (chunk.getLastD 0) e2 hrec
          rw [← Except.error.inj h]
          exact this
        | ok rest =>
          rw [hrec] at h
          exact Except.noConfusion h

theorem read_subblocks_err (data : List Nat) (pos : Nat) (e : Err)
    (h : read_subblocks data pos = .error e) : e = .truncated ∨ e = .fuelOut := by
  unfold read_subblocks at h
  cases hrb : readBytes data pos 1 with
  | error e2 =>
    rw [hrb] at h
    rw [readBytes_err data pos 1 e2 hrb] at h
    exact Or.inl (Except.error.inj h).symm
  | ok r =>
    obtain ⟨sb, pos1⟩ := r
    simp only [hrb] at h
    exact readSubblocksLoop_err data _ _ _ e h

theorem readCode_err (data : List Nat) (pos bitPos codeLen : Nat) (e : Err)
    (h : readCode data pos bitPos codeLen = .error e) : e = .truncated := by
  simp only [readCode] at h
  split at h
  · exact Except.noConfusion h
  · exact (Except.error.inj h).symm

theorem walkFirstByte_err (dict : List DEntry) :
    ∀ (fuel c : Nat) (e : Err), walkFirstByte dict fuel c = .error e →
      e = .indexErr ∨ e = .fuelOut := by
  intro fuel
  induction fuel with
  | zero =>
    intro c e h
    exact Or.inr (Except.error.inj h).symm
  | succ fuel ih =>
    intro c e h
    simp only [walkFirstByte] at h
    cases hg : dict.get? c with
    | none =>
      rw [hg] at h
      exact Or.inl (Except.error.inj h).symm
    | some pr =>
      obtain ⟨pfx, b⟩ := pr
      simp only [hg] at h
      cases pfx with
      | none => exact Except.noConfusion h
      | some q => exact ih q e h

theorem walkEntry_err (dict : List DEntry) :
    ∀ (fuel c : Nat) (acc : List Nat) (e : Err),
      walkEntry dict fuel c acc = .error e →
      e = .badCode ∨ e = .valueErr ∨ e = .fuelOut := by
  intro fuel
  induction fuel with
  | zero =>
    intro c acc e h
    exact Or.inr (Or.inr (Except.error.inj h).symm)
  | succ fuel ih =>
    intro c acc e h
    simp only [walkEntry] at h
    cases hg : dict.get? c with
    | none =>
      rw [hg] at h
      exact Or.inl (Except.error.inj h).symm
    | some pr =>
      obtain ⟨pfx, b⟩ := pr
      simp only [hg] at h
      split at h
      · exact Or.inr (Or.inl (Except.error.inj h).symm)
      · cases pfx with
        | none => exact Except.noConfusion h
        | some q => exact ih q (b :: acc) e h

theorem walkEntry_ok_256 (dict : List DEntry) :
    ∀ (fuel c : Nat) (acc entry : List Nat),
      walkEntry dict fuel c acc = .ok entry →
      ∃ pre, entry = pre ++ acc ∧ ∀ x ∈ pre, x < 256 := by
  intro fuel
  induction fuel with
  | zero =>
    intro c acc entry h
    exact Except.noConfusion h
  | succ fuel ih =>
    intro c acc entry h
    simp only [walkEntry] at h
    cases hg : dict.get? c with
    | none =>
      rw [hg] at h
      exact Except.noConfusion h
    | some pr =>
      obtain ⟨pfx, b⟩ := pr
      simp only [hg] at h
      split at h
      · exact Except.noConfusion h
      · rename_i hblt
        cases pfx with
        | none =>
          refine ⟨[b], by simpa using (Except.ok.inj h).symm, ?_⟩
          intro x hx
          rw [List.mem_singleton.mp hx]
          omega
        | some q =>
          obtain ⟨pre1, hpre1, hlt1⟩ := ih q (b :: acc) entry h
          refine ⟨pre1 ++ [b], ?_, ?_⟩
          · rw [hpre1, List.append_assoc, List.singleton_append]
          · intro x hx
            rcases List.mem_append.mp hx with h1 | h1
            · exact hlt1 x h1
            · rw [List.mem_singleton.mp h1]
              omega

theorem processCode_fail_err (p : Nat) (s : DecSt) (code : Nat) (e : Err)
    (h : lzwProcessCode p s code = .fail e) : e ≠ .badIndex := by
  by_cases hc1 : code = 2 ^ p
  · simp only [lzwProcessCode, if_pos hc1] at h
    exact StepRes.noConfusion h
  · by_cases hc2 : code = 2 ^ p + 1
    · simp only [lzwProcessCode, if_neg hc1, if_pos hc2] at h
      exact StepRes.noConfusion h
    · simp only [lzwProcessCode, if_neg hc1, if_neg hc2] at h
      cases hpc : s.prevCode with
      | none =>
        simp only [hpc] at h
        cases hw : walkEntry s.dict (s.dict.length + 1) code [] with
        | error e2 =>
          simp only [hw] at h
          have := walkEntry_err s.dict _ code [] e2 hw
          rw [← StepRes.fail.inj h]
          rintro rfl
          simp at this
        | ok entry =>
          simp only [hw] at h
          split at h
          · rw [← StepRes.fail.inj h]
            rintro he
            exact Err.noConfusion he
          · exact StepRes.noConfusion h
      | some pc =>
        simp only [hpc] at h
        cases hwb : walkFirstByte s.dict (s.dict.length + 1)
            (if code < s.dict.length then code else pc) with
        | error e2 =>
          simp only [hwb] at h
          have := walkFirstByte_err s.dict _ _ e2 hwb
          rw [← StepRes.fail.inj h]
          rintro rfl
          simp at this
        | ok b =>
          simp only [hwb] at h
          cases hw : walkEntry (s.dict ++ [(some pc, b)])
              ((s.dict ++ [(some pc, b)]).length + 1) code [] with
          | error e2 =>
            simp only [hw] at h
            have := walkEntry_err _ _ code [] e2 hw
            rw [← StepRes.fail.inj h]
            rintro rfl
            simp at this
          | ok entry =>
            simp only [hw] at h
            split at h
            · rw [← StepRes.fail.inj h]
              rintro he
              exact Err.noConfusion he
            · exact StepRes.noConfusion h

theorem lzwRun_err (data : List Nat) (p : Nat) :
    ∀ (fuel : Nat) (s : DecSt) (e : Err),
      lzwRun data p fuel s = .error e → e ≠ .badIndex := by
  intro fuel
  induction fuel with
  | zero =>
    intro s e h
    rw [← Except.error.inj h]
    rintro he
    exact Err.noConfusion he
  | succ fuel ih =>
    intro s e h
    simp only [lzwRun] at h
    cases hstep : lzwStep data p s with
    | fail e2 =>
      rw [hstep] at h
      unfold lzwStep at hstep
      cases hrc : readCode data s.pos s.bitPos s.codeLen with
      | error e3 =>
        simp only [hrc] at hstep
        rw [← Except.error.inj h, ← StepRes.fail.inj hstep,
          readCode_err data _ _ _ e3 hrc]
        rintro he
        exact Err.noConfusion he
      | ok code =>
        simp only [hrc] at hstep
        rw [← Except.error.inj h]
        exact processCode_fail_err p _ code e2 hstep
    | done o =>
      rw [hstep] at h
      exact Except.noConfusion h
    | next s1 =>
      rw [hstep] at h
      exact ih s1 e h

theorem lzw_decode_err (data : List Nat) (p : Nat) (e : Err)
    (h : lzw_decode data p = .error e) : e ≠ .badIndex :=
  lzwRun_err data p _ _ e h

theorem lzw_decode_out256 (data : List Nat) (p : Nat) (out : List Nat)
    (h : lzw_decode data p = .ok out) : ∀ x ∈ out, x < 256 := by
  suffices hrun : ∀ (fuel : Nat) (s : DecSt), (∀ x ∈ s.out, x < 256) →
      lzwRun data p fuel s = .ok out → ∀ x ∈ out, x < 256 by
    exact hrun _ (initDecSt p) (by simp [initDecSt]) h
  intro fuel
  induction fuel with
  | zero =>
    intro s _ hrun
    exact Except.noConfusion hrun
  | succ fuel ih =>
    intro s hs hrun
    simp only [lzwRun] at hrun
    cases hstep : lzwStep data p s with
    | fail e =>
      rw [hstep] at hrun
      exact Except.noConfusion hrun
    | done o =>
      rw [hstep] at hrun
      unfold lzwStep at hstep
      cases hrc : readCode data s.pos s.bitPos s.codeLen with
      | error e =>
        simp only [hrc] at hstep
        exact StepRes.noConfusion hstep
      | ok code =>
        simp only [hrc] at hstep
        have hdone := (processCode_done_out p _ code o hstep).1
        intro x hx
        apply hs x
        rw [← Except.ok.inj hrun, hdone] at hx
        exact hx
    | next s1 =>
      rw [hstep] at hrun
      refine ih s1 ?_ hrun
      unfold lzwStep at hstep
      cases hrc : readCode data s.pos s.bitPos s.codeLen with
      | error e =>
        simp only [hrc] at hstep
        exact StepRes.noConfusion hstep
      | ok code =>
        simp only [hrc] at hstep
        by_cases hc1 : code = 2 ^ p
        · rw [hc1] at hstep
          have hred : lzwProcessCode p { s with pos := s.pos + (s.bitPos + s.codeLen) / 8, bitPos := (s.bitPos + s.codeLen) % 8 } (2 ^ p) = .next { { s with pos := s.pos + (s.bitPos + s.codeLen) / 8, bitPos := (s.bitPos + s.codeLen) % 8 } with codeLen := p + 1, dictLen := 2 ^ p + 2, prevCode := none, dict := s.dict.take (2 ^ p + 2) } := by
            simp only [lzwProcessCode, eq_self_iff_true, if_true]
          rw [hred] at hstep
          rw [← StepRes.next.inj hstep]
          exact hs
        · by_cases hc2 : code = 2 ^ p + 1
          · rw [hc2] at hstep
            simp only [lzwProcessCode, eq_self_iff_true, if_true,
              if_neg (show ¬ (2 ^ p + 1 = 2 ^ p) by omega)] at hstep
            exact StepRes.noConfusion hstep
          · obtain ⟨-, -, hor⟩ := processCode_next_fields p _ code s1 hc1 hc2 hstep
            rcases hor with hsame | ⟨dict1, entry, hwk, hext⟩
            · rw [hsame]
              exact hs
            · rw [hext]
              intro x hx
              rcases List.mem_append.mp hx with h1 | h1
              · exact hs x h1
              · obtain ⟨pre, hpre, hlt⟩ := walkEntry_ok_256 dict1 _ code [] entry hwk
                rw [hpre, List.append_nil] at h1
                exact hlt x h1

theorem expandRgb_err (palT : List (List Nat)) :
    ∀ (l : List Nat) (e : Err), expandRgb palT l = .error e → e = .indexErr := by
  intro l
  induction l with
  | nil =>
    intro e h
    exact Except.noConfusion h
  | cons i rest ih =>
    intro e h
    simp only [expandRgb] at h
    cases hg : palT.get? i with
    | none =>
      rw [hg] at h
      exact (Except.error.inj h).symm
    | some c =>
      rw [hg] at h
      cases hrec : expandRgb palT rest with
      | error e2 =>
        rw [hrec] at h
        rw [← Except.error.inj h]
        exact ih e2 hrec
      | ok r =>
        rw [hrec] at h
        exact Except.noConfusion h

/-! ### Parser bounds -/

theorem read_image_info_bounds (data : List Nat) (pos : Nat) (ii : ImageInfo)
    (q : Nat) (h : read_image_info data pos = .ok (ii, q)) :
    2 ≤ ii.lzwPalBits ∧ ii.lzwPalBits ≤ 11 ∧
    (ii.lctBits = none ∨ ∃ lb, ii.lctBits = some lb ∧ 1 ≤ lb ∧ lb ≤ 8) := by
  simp only [read_image_info] at h
  cases hrb : readBytes data pos 9 with
  | error e =>
    rw [hrb] at h
    exact Except.noConfusion h
  | ok r =>
    obtain ⟨hdr, pos1⟩ := r
    simp only [hrb] at h
    split at h
    · exact Except.noConfusion h
    · by_cases ht : (hdr.getD 8 0).testBit 7
      · simp only [if_pos ht] at h
        cases hrb2 : readBytes data (pos1 + 2 ^ (hdr.getD 8 0 % 8 + 1) * 3) 1 with
        | error e =>
          rw [hrb2] at h
          exact Except.noConfusion h
        | ok r2 =>
          obtain ⟨lzwB, pos2⟩ := r2
          simp only [hrb2] at h
          split at h
          · exact Except.noConfusion h
          · rename_i hval
            have hii : ii = { width := hdr.getD 4 0 + 256 * hdr.getD 5 0, height := hdr.getD 6 0 + 256 * hdr.getD 7 0, interlace := (hdr.getD 8 0).testBit 6, lctAddr := some pos1, lctBits := some (hdr.getD 8 0 % 8 + 1), lzwPalBits := lzwB.getD 0 0, lzwAddr := pos2 } := by
              have := Except.ok.inj h
              exact (congrArg Prod.fst this).symm
            rw [hii]
            push_neg at hval
            refine ⟨by simpa using hval.1, by simpa using hval.2, ?_⟩
            exact Or.inr ⟨hdr.getD 8 0 % 8 + 1, rfl, by omega, by omega⟩
      · simp only [if_neg ht] at h
        cases hrb2 : readBytes data pos1 1 with
        | error e =>
          rw [hrb2] at h
          exact Except.noConfusion h
        | ok r2 =>
          obtain ⟨lzwB, pos2⟩ := r2
          simp only [hrb2] at h
          split at h
          · exact Except.noConfusion h
          · rename_i hval
            have hii : ii = { width := hdr.getD 4 0 + 256 * hdr.getD 5 0, height := hdr.getD 6 0 + 256 * hdr.getD 7 0, interlace := (hdr.getD 8 0).testBit 6, lctAddr := none, lctBits := none, lzwPalBits := lzwB.getD 0 0, lzwAddr := pos2 } := by
              have := Except.ok.inj h
              exact (congrArg Prod.fst this).symm
            rw [hii]
            push_neg at hval
            exact ⟨by simpa using hval.1, by simpa using hval.2, Or.inl rfl⟩

theorem readFirstImageInfo_bounds (data : List Nat) :
    ∀ (fuel pos : Nat) (ii : ImageInfo) (q : Nat),
      readFirstImageInfo data fuel pos = .ok (some (ii, q)) →
      2 ≤ ii.lzwPalBits ∧ ii.lzwPalBits ≤ 11 ∧
      (ii.lctBits = none ∨ ∃ lb, ii.lctBits = some lb ∧ 1 ≤ lb ∧ lb ≤ 8) := by
  intro fuel
  induction fuel with
  | zero =>
    intro pos ii q h
    exact Except.noConfusion h
  | succ fuel ih =>
    intro pos ii q h
    simp only [readFirstImageInfo] at h
    cases hrb : readBytes data pos 1 with
    | error e =>
      rw [hrb] at h
      exact Except.noConfusion h
    | ok r =>
      obtain ⟨bt, pos1⟩ := r
      simp only [hrb] at h
      split at h
      · cases hri : read_image_info data pos1 with
        | error e =>
          rw [hri] at h
          exact Except.noConfusion h
        | ok info1 =>
          obtain ⟨ii1, q1⟩ := info1
          rw [hri] at h
          have heq : (ii1, q1) = (ii, q) :=
            Option.some_inj.mp (Except.ok.inj h)
          rw [show ii = ii1 from (congrArg Prod.fst heq).symm]
          exact read_image_info_bounds data pos1 ii1 q1 hri
      · split at h
        · cases hsk : skip_extension_block data pos1 with
          | error e =>
            rw [hsk] at h
            exact Except.noConfusion h
          | ok pos2 =>
            rw [hsk] at h
            exact ih pos2 ii q h
        · split at h
          · exact Option.noConfusion (Except.ok.inj h)
          · exact Except.noConfusion h

theorem read_gif_bounds (gif : List Nat) (info : GifInfo)
    (h : read_gif gif = .ok info) :
    1 ≤ info.palBits ∧ info.palBits ≤ 8 ∧
    2 ≤ info.lzwPalBits ∧ info.lzwPalBits ≤ 11 := by
  simp only [read_gif] at h
  cases hrb : readBytes gif 0 13 with
  | error e =>
    rw [hrb] at h
    exact Except.noConfusion h
  | ok r =>
    obtain ⟨hdr, pos1⟩ := r
    simp only [hrb] at h
    split at h
    · exact Except.noConfusion h
    · by_cases ht : (hdr.getD 10 0).testBit 7
      · simp only [if_pos ht] at h
        cases hfi : readFirstImageInfo gif (gif.length + 1)
            (pos1 + 2 ^ (hdr.getD 10 0 % 8 + 1) * 3) with
        | error e =>
          rw [hfi] at h
          exact Except.noConfusion h
        | ok oinfo =>
          rw [hfi] at h
          cases oinfo with
          | none => exact Except.noConfusion h
          | some iq =>
            obtain ⟨ii, q⟩ := iq
            obtain ⟨hlzw1, hlzw2, hlct⟩ :=
              readFirstImageInfo_bounds gif _ _ ii q hfi
            cases hlA : ii.lctAddr with
            | some lctAddr =>
              cases hlB : ii.lctBits with
              | some lctBits =>
                simp only [hlA, hlB] at h
                rw [← Except.ok.inj h]
                rcases hlct with hn | ⟨lb, hlb, hlb1, hlb8⟩
                · rw [hlB] at hn
                  exact Option.noConfusion hn
                · rw [hlB] at hlb
                  have : lctBits = lb := Option.some_inj.mp hlb
                  subst this
                  exact ⟨hlb1, hlb8, hlzw1, hlzw2⟩
              | none =>
                simp only [hlA, hlB] at h
                rw [← Except.ok.inj h]
                refine ⟨?_, ?_, hlzw1, hlzw2⟩
                · show 1 ≤ hdr.getD 10 0 % 8 + 1
                  omega
                · show hdr.getD 10 0 % 8 + 1 ≤ 8
                  omega
            | none =>
              cases hlB : ii.lctBits with
              | some lctBits =>
                simp only [hlA, hlB] at h
                rw [← Except.ok.inj h]
                refine ⟨?_, ?_, hlzw1, hlzw2⟩
                · show 1 ≤ hdr.getD 10 0 % 8 + 1
                  omega
                · show hdr.getD 10 0 % 8 + 1 ≤ 8
                  omega
              | none =>
                simp only [hlA, hlB] at h
                rw [← Except.ok.inj h]
                refine ⟨?_, ?_, hlzw1, hlzw2⟩
                · show 1 ≤ hdr.getD 10 0 % 8 + 1
                  omega
                · show hdr.getD 10 0 % 8 + 1 ≤ 8
                  omega
      · simp only [if_neg ht] at h
        cases hfi : readFirstImageInfo gif (gif.length + 1) pos1 with
        | error e =>
          rw [hfi] at h
          exact Except.noConfusion h
        | ok oinfo =>
          rw [hfi] at h
          cases oinfo with
          | none => exact Except.noConfusion h
          | some iq =>
            obtain ⟨ii, q⟩ := iq
            obtain ⟨hlzw1, hlzw2, hlct⟩ :=
              readFirstImageInfo_bounds gif _ _ ii q hfi
            cases hlA : ii.lctAddr with
            | some lctAddr =>
              cases hlB : ii.lctBits with
              | some lctBits =>
                simp only [hlA, hlB] at h
                rw [← Except.ok.inj h]
                rcases hlct with hn | ⟨lb, hlb, hlb1, hlb8⟩
                · rw [hlB] at hn
                  exact Option.noConfusion hn
                · rw [hlB] at hlb
                  have : lctBits = lb := Option.some_inj.mp hlb
                  subst this
                  exact ⟨hlb1, hlb8, hlzw1, hlzw2⟩
              | none =>
                simp only [hlA, hlB] at h
                exact Except.noConfusion h
            | none =>
              cases hlB : ii.lctBits with
              | some lctBits =>
                simp only [hlA, hlB] at h
                exact Except.noConfusion h
              | none =>
                simp only [hlA, hlB] at h
                exact Except.noConfusion h

/-! ### Pipeline decomposition and list-max lemmas -/

theorem decodePipeline_parts (gif : List Nat) (info : GifInfo)
    (palette imageData : List Nat)
    (h : decodePipeline gif = .ok (info, palette, imageData)) :
    read_gif gif = .ok info ∧
    ∃ lzwBytes, read_subblocks gif info.lzwAddr = .ok lzwBytes ∧
      lzw_decode lzwBytes info.lzwPalBits = .ok imageData := by
  unfold decodePipeline at h
  cases hrg : read_gif gif with
  | error e =>
    rw [hrg] at h
    exact Except.noConfusion h
  | ok info1 =>
    simp only [hrg] at h
    cases hrp : readBytes gif info1.palAddr (2 ^ info1.palBits * 3) with
    | error e =>
      rw [hrp] at h
      exact Except.noConfusion h
    | ok rp =>
      obtain ⟨pal1, posp⟩ := rp
      simp only [hrp] at h
      cases hrs : read_subblocks gif info1.lzwAddr with
      | error e =>
        rw [hrs] at h
        exact Except.noConfusion h
      | ok lzwBytes =>
        simp only [hrs] at h
        cases hld : lzw_decode lzwBytes info1.lzwPalBits with
        | error e =>
          rw [hld] at h
          exact Except.noConfusion h
        | ok img1 =>
          rw [hld] at h
          have heq := Except.ok.inj h
          have hinfo : info1 = info := congrArg Prod.fst heq
          have himg : img1 = imageData :=
            congrArg (Prod.snd ∘ Prod.snd) heq
          subst hinfo
          exact ⟨rfl, lzwBytes, hrs, himg ▸ hld⟩

theorem listMax_mem (l : List Nat) (h : l ≠ []) : listMax l ∈ l := by
  induction l with
  | nil => exact absurd rfl h
  | cons a r ih =>
    rcases le_total (listMax r) a with h1 | h1
    · have h2 : listMax (a :: r) = a := by
        simp only [listMax]
        omega
      rw [h2]
      exact List.mem_cons_self _ _
    · by_cases hr : r = []
      · subst hr
        simp [listMax]
      · have h2 : listMax (a :: r) = listMax r := by
          simp only [listMax]
          omega
        rw [h2]
        exact List.mem_cons_of_mem a (ih hr)

theorem listMax_ge (l : List Nat) : ∀ x ∈ l, x ≤ listMax l := by
  induction l with
  | nil =>
    intro x hx
    cases hx
  | cons a r ih =>
    intro x hx
    rcases List.mem_cons.mp hx with h1 | h1
    · simp only [listMax, h1]
      omega
    · have := ih x h1
      simp only [listMax]
      omega

theorem clog2F_eq (fuel : Nat) : ∀ n : Nat, n ≤ fuel → clog2F fuel n = Nat.clog 2 n := by
  induction fuel with
  | zero =>
    intro n h
    have hn : n = 0 := by omega
    subst hn
    simp [clog2F, Nat.clog_of_right_le_one]
  | succ fuel ih =>
    intro n h
    simp only [clog2F]
    by_cases h1 : n ≤ 1
    · rw [if_pos h1, Nat.clog_of_right_le_one h1]
    · rw [if_neg h1, ih ((n + 1) / 2) (by omega),
        Nat.clog_of_two_le (by norm_num) (show 1 < n by omega)]
      have h2 : (n + 2 - 1) / 2 = (n + 1) / 2 := by omega
      rw [h2]

theorem clog2_eq (n : Nat) : clog2 n = Nat.clog 2 n :=
  clog2F_eq n n le_rfl

theorem expandRgb_ne_badIndex (palT : List (List Nat)) (l : List Nat) :
    expandRgb palT l ≠ .error .badIndex := by
  intro h
  exact Err.noConfusion (expandRgb_err palT l _ h)

theorem decodePipeline_err_ne (gif : List Nat) (info : GifInfo) (e : Err)
    (hparse : read_gif gif = .ok info)
    (h : decodePipeline gif = .error e) : e ≠ .badIndex := by
  unfold decodePipeline at h
  simp only [hparse] at h
  cases hrp : readBytes gif info.palAddr (2 ^ info.palBits * 3) with
  | error e2 =>
    rw [hrp] at h
    rw [readBytes_err _ _ _ _ hrp] at h
    rw [← Except.error.inj h]
    rintro hc
    exact Err.noConfusion hc
  | ok rp =>
    obtain ⟨pal1, posp⟩ := rp
    simp only [hrp] at h
    cases hrs : read_subblocks gif info.lzwAddr with
    | error e2 =>
      rw [hrs] at h
      rcases read_subblocks_err _ _ _ hrs with h2 | h2 <;>
        (rw [h2] at h; rw [← Except.error.inj h]; rintro hc; exact Err.noConfusion hc)
    | ok lzwBytes =>
      simp only [hrs] at h
      cases hld : lzw_decode lzwBytes info.lzwPalBits with
      | error e2 =>
        rw [hld] at h
        rw [← Except.error.inj h]
        exact lzw_decode_err _ _ _ hld
      | ok img =>
        rw [hld] at h
        exact Except.noConfusion h

/-- C6: for every GIF whose container the code accepts (`read_gif`
succeeds), `decode_gif` raises the BadIndex error exactly when the decoding
pipeline succeeds and some decoded pixel index reaches `2^palBits` of the
effective palette (first conjunct).  When `lzwPalBits ≤ palBits` no decoded
index can reach `2^palBits` (second conjunct), and no index surviving
`lzw_decode` reaches 256 (the source builds a `bytearray`), so the
implementation's `lzwPalBits > palBits` guard is equivalent to performing
the check whenever `palBits < 8` (third conjunct). -/
theorem c6_badindex_iff (gif : List Nat) (info : GifInfo)
    (hparse : read_gif gif = .ok info) :
    (decode_gif gif = .error .badIndex ↔
      (∃ palette imageData, decodePipeline gif = .ok (info, palette, imageData) ∧
        ∃ i ∈ imageData, 2 ^ info.palBits ≤ i)) ∧
    (∀ palette imageData, decodePipeline gif = .ok (info, palette, imageData) →
      info.lzwPalBits ≤ info.palBits → ∀ i ∈ imageData, i < 2 ^ info.palBits) ∧
    (decode_gif gif = .error .badIndex ↔
      (info.palBits < 8 ∧
        ∃ palette imageData, decodePipeline gif = .ok (info, palette, imageData) ∧
          ∃ i ∈ imageData, 2 ^ info.palBits ≤ i)) := by
  obtain ⟨hpb1, hpb8, hlzw2, hlzw11⟩ := read_gif_bounds gif info hparse
  have hsecond : ∀ palette imageData,
      decodePipeline gif = .ok (info, palette, imageData) →
      info.lzwPalBits ≤ info.palBits → ∀ i ∈ imageData, i < 2 ^ info.palBits := by
    intro palette imageData hpipe hle i hi
    obtain ⟨-, lzwBytes, -, hld⟩ :=
      decodePipeline_parts gif info palette imageData hpipe
    have hlt : i < 2 ^ info.lzwPalBits :=
      lzwRun_out_lt info.lzwPalBits hlzw2 hlzw11 lzwBytes _ _ imageData
        (decInv_init info.lzwPalBits hlzw2 hlzw11) hld i hi
    have hmono : (2 : Nat) ^ info.lzwPalBits ≤ 2 ^ info.palBits :=
      Nat.pow_le_pow_right (by norm_num) hle
    omega
  have hmain : decode_gif gif = .error .badIndex ↔
      (∃ palette imageData, decodePipeline gif = .ok (info, palette, imageData) ∧
        ∃ i ∈ imageData, 2 ^ info.palBits ≤ i) := by
    cases hpipe : decodePipeline gif with
    | error e =>
      constructor
      · intro hbad
        exfalso
        simp only [decode_gif, hpipe] at hbad
        exact decodePipeline_err_ne gif info e hparse hpipe (Except.error.inj hbad)
      · rintro ⟨palette, imageData, hok, -⟩
        exact Except.noConfusion hok
    | ok t =>
      obtain ⟨info1, rest⟩ := t
      obtain ⟨palette1, imageData1⟩ := rest
      have hinfo1 : info = info1 := by
        have h1 := (decodePipeline_parts gif info1 palette1 imageData1 hpipe).1
        rw [hparse] at h1
        exact Except.ok.inj h1
      subst hinfo1
      constructor
      · intro hbad
        simp only [decode_gif, hpipe] at hbad
        by_cases hguard : info.palBits < info.lzwPalBits
        · rw [if_pos hguard] at hbad
          by_cases hemp : imageData1.isEmpty = true
          · rw [if_pos hemp] at hbad
            exact absurd (Except.error.inj hbad) (fun hc => Err.noConfusion hc)
          · rw [if_neg hemp] at hbad
            by_cases hmax : 2 ^ info.palBits ≤ listMax imageData1
            · refine ⟨palette1, imageData1, rfl, listMax imageData1, ?_, hmax⟩
              refine listMax_mem imageData1 ?_
              intro hnil
              rw [hnil] at hemp
              exact hemp rfl
            · rw [if_neg hmax] at hbad
              exact absurd hbad (expandRgb_ne_badIndex _ _)
        · rw [if_neg hguard] at hbad
          exact absurd hbad (expandRgb_ne_badIndex _ _)
      · rintro ⟨p1, id1, hok, i, hi, hge⟩
        have heq := Except.ok.inj hok
        have hid : id1 = imageData1 :=
          (congrArg (Prod.snd ∘ Prod.snd) heq).symm
        rw [hid] at hi
        have hguard : info.palBits < info.lzwPalBits := by
          by_contra hc
          have := hsecond palette1 imageData1 hpipe (by omega) i hi
          omega
        have hmax : 2 ^ info.palBits ≤ listMax imageData1 :=
          le_trans hge (listMax_ge imageData1 i hi)
        have hempB : imageData1.isEmpty = false := by
          cases imageData1 with
          | nil => cases hi
          | cons a t => rfl
        simp only [decode_gif, hpipe]
        rw [if_pos hguard, if_neg (by rw [hempB]; exact fun hc => Bool.noConfusion hc),
          if_pos hmax]
  have hthird : decode_gif gif = .error .badIndex ↔
      (info.palBits < 8 ∧
        ∃ palette imageData, decodePipeline gif = .ok (info, palette, imageData) ∧
          ∃ i ∈ imageData, 2 ^ info.palBits ≤ i) := by
    constructor
    · intro hbad
      obtain ⟨p1, id1, hok, i, hi, hge⟩ := hmain.mp hbad
      obtain ⟨-, lzwBytes, -, hld⟩ := decodePipeline_parts gif info p1 id1 hok
      have h256 : i < 256 := lzw_decode_out256 _ _ _ hld i hi
      have hlt8 : info.palBits < 8 := by
        by_contra hc
        have h8 : info.palBits = 8 := by omega
        rw [h8] at hge
        norm_num at hge
        omega
      exact ⟨hlt8, p1, id1, hok, i, hi, hge⟩
    · rintro ⟨-, hR⟩
      exact hmain.mpr hR
  exact ⟨hmain, hsecond, hthird⟩

/-- Witness for `c6_badindex_iff`: the minimal accepted container `c6gif`
parses to `c6info`, discharging the hypothesis, and the theorem applies. -/
theorem c6_badindex_iff_witness :
    read_gif c6gif = .ok c6info ∧
    ((decode_gif c6gif = .error .badIndex ↔
      (∃ palette imageData, decodePipeline c6gif = .ok (c6info, palette, imageData) ∧
        ∃ i ∈ imageData, 2 ^ c6info.palBits ≤ i)) ∧
    (∀ palette imageData, decodePipeline c6gif = .ok (c6info, palette, imageData) →
      c6info.lzwPalBits ≤ c6info.palBits → ∀ i ∈ imageData, i < 2 ^ c6info.palBits) ∧
    (decode_gif c6gif = .error .badIndex ↔
      (c6info.palBits < 8 ∧
        ∃ palette imageData, decodePipeline c6gif = .ok (c6info, palette, imageData) ∧
          ∃ i ∈ imageData, 2 ^ c6info.palBits ≤ i))) :=
  ⟨rfl, c6_badindex_iff c6gif c6info rfl⟩

/-- C1, the claim is false on the code, and the code contradicts the spec's
own round-trip guarantee: for the 17x1 two-color image `c1rgb`,
`encode_gif` succeeds, producing the 39-byte stream `c1gif` (verified
byte-identical to what `src/gif.py` emits), but `decode_gif` on that very
stream fails with the Truncated error ("unexpected end of file").  The
encoder emits a clear code and 11 data codes; after the 11th data code the
decoder's simulated dictionary length reaches `16 = 2^4`, so it widens the
code length from 4 to 5 bits and reads the end code at 5 bits; the encoder,
which adds no dictionary entry after the final match, wrote the end code at
4 bits, ending exactly on the 48-bit (6-byte) boundary of the LZW data, so
the widened read needs a seventh LZW byte that does not exist. -/
theorem c1_roundtrip_failure :
    encode_gif false 17 c1rgb = .ok c1gif ∧
    decode_gif c1gif = .error .truncated :=
  ⟨rfl, rfl⟩

/-- Witness for `c4_encoder_width_invariant` at `palBits = 2`,
input `[1,1,1,1,1,2]`. -/
theorem c4_encoder_width_invariant_witness :
    ∃ codes, lzw_encode false 2 [1, 1, 1, 1, 1, 2] = .ok codes ∧
      codes.head? = some (2 ^ 2, 2 + 1) ∧
      (∀ cw ∈ codes, 2 + 1 ≤ cw.2 ∧ cw.2 ≤ 12 ∧ cw.1 < 2 ^ cw.2) ∧
      List.Chain' (encAdj 2) codes :=
  (c4_encoder_width_invariant false 2 [1, 1, 1, 1, 1, 2]
    (by decide) (by decide) (by decide)).1

/-- Witness for `c10_encoder_totality` at `palBits = 2`, input `[0,1,0,1]`,
with `no_dict_reset` set. -/
theorem c10_encoder_totality_witness :
    ∃ codes, lzw_encode true 2 [0, 1, 0, 1] = .ok codes ∧
      codes.head? = some (2 ^ 2, 2 + 1) ∧
      (∃ w, codes.getLast? = some (2 ^ 2 + 1, w)) ∧
      ∀ cw ∈ codes.dropLast, cw.1 ≠ 2 ^ 2 + 1 :=
  (c10_encoder_totality true 2 [0, 1, 0, 1]
    (by decide) (by decide) (by decide)).2

end PyGif
